import Mathlib

/-!
# predmond/graphql: query compiler and text emitter

A shallow embedding of `graphql.go` and `writer.go`, and the properties of the query
compiler stated on it.

* Go strings are Lean strings (the texts handled are valid UTF-8).
* `reflect.Type` is the inductive type `Ty`: what `query` and `Query.Marshal` inspect is
  kept, namely the kind, the fields of a struct, the element of a slice, the identity
  of a defined struct type (its name) and the `MarshalGraphQL` of the method set. A
  `Ty` is a finite tree; a Go type that contains itself through a list has none, and
  the walker of the source does not return on such a type.
* `*Writer` is threaded explicitly: a function that mutates the writer in Go takes a
  `Writer` and returns the new one here. A renderer (`MarshalGraphQL`) is any function
  of the writer and the name: it receives the whole writer, as in the source.
* The case tables of the package `unicode`, which `unicode.ToLower` consults beyond
  ASCII, are a parameter `table` of the functions that derive names.
* `query`, `Query.Marshal` and `Unmarshal` give what a call does when it returns.
  `queryRun`, `AnyQuery.Marshal` and `UnmarshalRun` follow the same source with the
  panics made explicit: a nil object, a renderer reached through a nil embedded
  pointer, a field that cannot be set. Where no call panics the two agree
  (`queryRun_returns`, `unmarshalFieldsRun_returned`).
-/

namespace GraphQL

set_option maxRecDepth 8000

/-! ## writer.go -/

/-- The `Writer` struct: the embedded `bytes.Buffer` (its content) and `level`. -/
structure Writer where
  buf : String
  level : Int
deriving DecidableEq, Repr

/-- The writer made by `new(Writer)`: empty buffer, level zero. -/
def Writer.new : Writer := ⟨"", 0⟩

/-- The method `WriteString` of the embedded buffer: append to the content. -/
def Writer.WriteString (w : Writer) (s : String) : Writer :=
  { w with buf := w.buf ++ s }

/-- The method `Bytes` of the embedded buffer. -/
def Writer.Bytes (w : Writer) : String := w.buf

/-- `Writer.Indent`: `for i := 0; i < w.level; i++ { w.WriteString("  ") }`.
The loop body runs `level` times, and not at all for a level below one. -/
def Writer.Indent (w : Writer) : Writer :=
  Nat.iterate (fun v => v.WriteString "  ") w.level.toNat w

/-- `strings.Join(elems, sep)`. -/
def stringsJoin : List String → String → String
  | [], _ => ""
  | [a], _ => a
  | a :: b :: rest, sep => a ++ sep ++ stringsJoin (b :: rest) sep

/-- `fmt.Fprintln` on string operands: the operands separated by single spaces,
then a newline. -/
def fmtSprintln (a : List String) : String :=
  stringsJoin a " " ++ "\n"

/-- `Writer.Println`: indent, then `fmt.Fprintln(&w.Buffer, a...)`. -/
def Writer.Println (w : Writer) (a : List String) : Writer :=
  w.Indent.WriteString (fmtSprintln a)

/-- `Writer.Scope`: the opening line (with the label when it is not empty), the
body `f` one level deeper, the level taken back by one, the closing line. -/
def Writer.Scope (w : Writer) (label : String) (f : Writer → Writer) : Writer :=
  let w1 := if label.length > 0 then w.Println [label, "\x7b"] else w.Println ["\x7b"]
  let w2 := { w1 with level := w1.level + 1 }
  let w3 := f w2
  let w4 := { w3 with level := w3.level - 1 }
  w4.Println ["\x7d"]

/-! ## reflection: types and struct fields -/

/-- The method `MarshalGraphQL(w *Writer, name string) error` of a type, called on a
fresh zero value: from the writer and the name to the writer it leaves behind and
the error it returns (`none` for `nil`). -/
abbrev Marshaler := Writer → String → Writer × Option String

mutual
/-- A `reflect.Type`, by kind. `Struct` carries the name of the defined type (empty
for a struct literal), its fields in declaration order and the `MarshalGraphQL`
of its method set, own or promoted from an embedded field, if it has one. `Slice`
carries the element type. `Other` is every remaining kind (string, bool, the
numeric kinds, pointer, map, array, ...). -/
inductive Ty where
  | Struct (name : String) (fields : List StructField) (marshal : Option Marshaler)
  | Slice (elem : Ty) (marshal : Option Marshaler)
  | Other (marshal : Option Marshaler)
/-- A `reflect.StructField`: `Name`, the result of `Tag.Lookup("graphql")`
(`none` when the tag has no such key) and `Type`. -/
inductive StructField where
  | mk (Name : String) (Tag : Option String) (Typ : Ty)
end

/-- The field `Name` of a struct field. -/
def StructField.Name : StructField → String
  | .mk n _ _ => n

/-- The `graphql` entry of the tag of a struct field. -/
def StructField.Tag : StructField → Option String
  | .mk _ t _ => t

/-- The field `Type` of a struct field. -/
def StructField.Typ : StructField → Ty
  | .mk _ _ t => t

/-- The kinds `query` and `Query.Marshal` tell apart. -/
inductive Kind where
  | Struct
  | Slice
  | Other
deriving DecidableEq, Repr

/-- `Type.Kind()`. -/
def Ty.Kind : Ty → Kind
  | .Struct _ _ _ => .Struct
  | .Slice _ _ => .Slice
  | .Other _ => .Other

/-- The fields `Type.Field(0)`, ..., `Type.Field(NumField()-1)` of a struct type
(Go panics on another kind; every call is guarded by a test of the kind). -/
def Ty.Fields : Ty → List StructField
  | .Struct _ fields _ => fields
  | _ => []

/-- `Type.NumField()`. -/
def Ty.NumField (ty : Ty) : Nat := ty.Fields.length

/-- The name under which the defined type `Connection` of this package is known. -/
def ConnectionName : String := "graphql.Connection"

/-- The type `bool`, `string`, `int`, `float32`: kinds that are neither struct nor
slice, with no method. -/
def Ty.basic : Ty := .Other none

/-- The type `PageInfo`. -/
def PageInfo : Ty :=
  .Struct "graphql.PageInfo"
    [ .mk "HasNextPage" none Ty.basic,
      .mk "HasPreviousPage" none Ty.basic,
      .mk "StartCursor" none Ty.basic,
      .mk "EndCursor" none Ty.basic ] none

/-- The type `Connection`. -/
def Connection : Ty :=
  .Struct ConnectionName
    [ .mk "TotalCount" none Ty.basic,
      .mk "PageInfo" none PageInfo ] none

/-- `HideStruct.MarshalGraphQL`: print the name on a line, return `nil`. -/
def HideStruct.MarshalGraphQL : Marshaler :=
  fun w name => (w.Println [name], none)

/-- The type `HideStruct`: a struct with no field whose method set holds
`MarshalGraphQL`. -/
def HideStruct : Ty := .Struct "graphql.HideStruct" [] (some HideStruct.MarshalGraphQL)

/-! ## graphql.go: names -/

/-- `strings.Replace(s, old, new, -1)` for a non-empty `old`, on the characters of
`s`: the leftmost occurrence of `old` is replaced and the search goes on after it.
The first argument bounds the number of steps; the length of `s` is enough. -/
def replaceLoop (old new : List Char) : Nat → List Char → List Char
  | 0, s => s
  | _ + 1, [] => []
  | fuel + 1, c :: cs =>
    if old.isPrefixOf (c :: cs) then
      new ++ replaceLoop old new fuel ((c :: cs).drop old.length)
    else
      c :: replaceLoop old new fuel cs

/-- `strings.Replace(s, old, new, -1)` for a non-empty `old`. -/
def stringsReplace (s old new : String) : String :=
  ⟨replaceLoop old.data new.data s.data.length s.data⟩

/-- `unicode.ToLower`: an ASCII capital is moved to its small letter and any other
ASCII character is returned as it is; a character beyond ASCII is looked up in the
case tables of the `unicode` package, which are the parameter `table`. -/
def unicodeToLower (table : Char → Char) (r : Char) : Char :=
  if r.toNat ≤ 127 then
    if 65 ≤ r.toNat ∧ r.toNat ≤ 90 then Char.ofNat (r.toNat + 32) else r
  else table r

/-- `getName`: replace `ID` by `Id`, then `URL` by `Url`, then lower the first
character. Go panics on an empty name at `t[0]`; struct fields have no empty name,
and the empty string is returned for it here. -/
def getName (table : Char → Char) (field : StructField) : String :=
  let name := stringsReplace field.Name "ID" "Id"
  let name := stringsReplace name "URL" "Url"
  match name.data with
  | [] => ""
  | t0 :: rest => ⟨unicodeToLower table t0 :: rest⟩

/-- `getNameAndArguments`: the derived name, followed by the `graphql` tag in
parentheses when the field has one. -/
def getNameAndArguments (table : Char → Char) (field : StructField) : String :=
  let name := getName table field
  match field.Tag with
  | some value => name ++ "(" ++ value ++ ")"
  | none => name

/-! ## graphql.go: queries -/

/-- The struct `queryVariable`. -/
structure queryVariable where
  name : String
  typeName : String
deriving DecidableEq, Repr

/-- `queryVariable.String`: `fmt.Sprintf("$%s: %s", q.name, q.typeName)`. -/
def queryVariable.String (q : queryVariable) : String :=
  "$" ++ q.name ++ ": " ++ q.typeName

/-- The struct `Query` with an object that is not nil; the field `variables` is `vars`
here. Of `object` only its dynamic type is kept, which is all `Marshal` reads. A nil
`object` has no type: `AnyQuery` has a place for it. -/
structure Query where
  name : String
  object : Ty
  vars : List queryVariable

/-- `NewQuery`. -/
def NewQuery (name : String) (object : Ty) : Query :=
  { name := name, object := object, vars := [] }

/-- `Query.DefineVariable`: append the variable, return the query. -/
def Query.DefineVariable (q : Query) (name typeName : String) : Query :=
  { q with vars := q.vars ++ [⟨name, typeName⟩] }

/-- `Query.signature`. -/
def Query.signature (q : Query) : String :=
  if q.name.length = 0 then ""
  else
    let s := "query " ++ q.name
    if q.vars.length > 0 then
      let vs := q.vars.map queryVariable.String
      s ++ "(" ++ stringsJoin vs ", " ++ ")"
    else s

mutual
/-- The function `query`, when the calls of the renderers return: the writer it
leaves. `queryRun` is the same function with the panic of a renderer made explicit. -/
def query (table : Char → Char) (w : Writer) (name : String) : Ty → Writer
  | .Struct tyName fields marshal =>
    if tyName = ConnectionName then
      queryStruct table w fields
    else
      match marshal with
      | some m =>
        match m w name with
        | (w1, some _) => w1
        | (w1, none) => w1
      | none => w.Scope name (fun v => queryStruct table v fields)
  | .Slice elem _ => query table w name elem
  | .Other _ => w.Println [name]
/-- The closure `queryStruct` inside `query`, which is also the loop of
`Query.Marshal` over the fields of the root: each field in turn, under its name
with arguments. -/
def queryStruct (table : Char → Char) (w : Writer) : List StructField → Writer
  | [] => w
  | .mk fieldName tag fieldType :: rest =>
    let field := StructField.mk fieldName tag fieldType
    queryStruct table (query table w (getNameAndArguments table field) fieldType) rest
end

/-- `Query.Marshal` on an object that is not nil, when the calls of the renderers
return: the bytes of the query, or the error. `AnyQuery.Marshal` is the same function
with the nil object and the panics made explicit. -/
def Query.Marshal (table : Char → Char) (q : Query) : Except String String :=
  let qType := q.object
  if qType.Kind ≠ Kind.Struct ∨ qType.NumField = 0 then
    .error "query object must be a non-empty struct"
  else
    let w := Writer.new.Scope q.signature (fun v => queryStruct table v qType.Fields)
    .ok w.Bytes

/-- `Query.MarshalString`. -/
def Query.MarshalString (table : Char → Char) (q : Query) : Except String String :=
  q.Marshal table

/-! ## graphql.go: the ID codec

Byte slices and the strings handled here are lists of bytes (natural numbers below
256). The functions of the standard library that `ID.UnmarshalJSON` calls are written
out as the library documents them. -/

/-- The decode map of `base64.StdEncoding`: the value of a byte of the alphabet
`A-Z a-z 0-9 + /`, and nothing for any other byte. -/
def base64Value (c : Nat) : Option Nat :=
  if 65 ≤ c ∧ c ≤ 90 then some (c - 65)
  else if 97 ≤ c ∧ c ≤ 122 then some (c - 71)
  else if 48 ≤ c ∧ c ≤ 57 then some (c + 4)
  else if c = 43 then some 62
  else if c = 47 then some 63
  else none

/-- The quanta of four bytes of a padded base64 text without newlines: each quantum
gives the three bytes of `val = x<<18 | y<<12 | z<<6 | u`; the last one may end with
one `=` (two bytes) or two (one byte); padding anywhere else, a byte outside the
alphabet or an incomplete quantum is an error. -/
def decodeQuanta : List Nat → Option (List Nat)
  | a :: b :: c :: d :: rest =>
    match base64Value a, base64Value b with
    | some x, some y =>
      if c = 61 then
        if d = 61 ∧ rest = [] then
          some [(x * 262144 + y * 4096) / 65536 % 256]
        else none
      else
        match base64Value c with
        | none => none
        | some z =>
          if d = 61 then
            if rest = [] then
              some [(x * 262144 + y * 4096 + z * 64) / 65536 % 256,
                    (x * 262144 + y * 4096 + z * 64) / 256 % 256]
            else none
          else
            match base64Value d with
            | none => none
            | some u =>
              match decodeQuanta rest with
              | none => none
              | some more =>
                some ((x * 262144 + y * 4096 + z * 64 + u) / 65536 % 256
                  :: (x * 262144 + y * 4096 + z * 64 + u) / 256 % 256
                  :: (x * 262144 + y * 4096 + z * 64 + u) % 256 :: more)
    | _, _ => none
  | [] => some []
  | _ => none

/-- `base64.StdEncoding.DecodeString`: the decoder skips the bytes `\r` and `\n`
wherever they stand and decodes the quanta of what remains; `none` is its error. -/
def base64Decode (s : List Nat) : Option (List Nat) :=
  decodeQuanta (s.filter fun c => c ≠ 10 ∧ c ≠ 13)

/-- `strings.Split(s, sep)` for a separator of one byte: the parts between the
occurrences of the separator, one more than there are occurrences. -/
def stringsSplit (sep : Nat) : List Nat → List (List Nat)
  | [] => [[]]
  | c :: cs =>
    if c = sep then [] :: stringsSplit sep cs
    else
      match stringsSplit sep cs with
      | first :: more => (c :: first) :: more
      | [] => [[c]]

/-- The loop of `strconv.Atoi` over the digits: `n = n*10 + int(ch - 48)`, a syntax
error (`none`) at a byte that is not a digit. -/
def atoiLoop : Nat → List Nat → Option Nat
  | n, [] => some n
  | n, ch :: rest =>
    if 48 ≤ ch ∧ ch ≤ 57 then atoiLoop (n * 10 + (ch - 48)) rest else none

/-- `strconv.Atoi` where `int` has 64 bits: an optional sign, one digit or more, and a
value that fits; `none` is its error (syntax or range). -/
def strconvAtoi (s : List Nat) : Option Int :=
  match s with
  | [] => none
  | c :: rest =>
    let digits := if c = 45 ∨ c = 43 then rest else c :: rest
    if digits = [] then none
    else
      match atoiLoop 0 digits with
      | none => none
      | some n =>
        if c = 45 then
          if n ≤ 2 ^ 63 then some (-(n : Int)) else none
        else
          if n < 2 ^ 63 then some (n : Int) else none

/-- The return statement of `ID.UnmarshalJSON` that gave an error. -/
inductive IDError where
  | expectedString
  | base64
  | unexpectedDecodedId
  | invalidId
deriving DecidableEq, Repr

/-- `ID.UnmarshalJSON`: from the ID and the data to the ID afterwards and the error
(`none` for `nil`). -/
def ID.UnmarshalJSON (i : Int) (data : List Nat) : Int × Option IDError :=
  if data.length < 2 ∨ data.head? ≠ some 34 ∨ data.getLast? ≠ some 34 then
    (i, some .expectedString)
  else
    let data1 := (data.drop 1).dropLast
    match base64Decode data1 with
    | none => (i, some .base64)
    | some data2 =>
      let splits := stringsSplit 58 data2
      if splits.length ≠ 2 then (i, some .unexpectedDecodedId)
      else
        match strconvAtoi (splits.getD 1 []) with
        | none => (i, some .invalidId)
        | some id => (id, none)

/-! ## graphql.go: the response binder

`Unmarshal` calls `json.Unmarshal` twice. The payload is taken after the syntax check
that `json.Unmarshal` makes first: `none` when the bytes are not valid JSON, the
document otherwise. The first call, into `struct { Data map[string]json.RawMessage }`,
is written out as `encoding/json` documents it. The second one, into a fresh value of
the type of a field, is a parameter `jsonUnmarshal`, and so is the type `Val` of the
values of fields. -/

/-- A JSON document. -/
inductive Json where
  | null
  | bool (b : Bool)
  | number (text : String)
  | string (s : String)
  | array (elems : List Json)
  | object (members : List (String × Json))

/-- A `map[string]json.RawMessage`, by its lookup `raw, ok := m[key]`; the nil map and
the empty map have no key. -/
abbrev RawMap := String → Option Json

/-- The map with no key. -/
def RawMap.empty : RawMap := fun _ => none

/-- The assignment `m[key] = raw`. -/
def RawMap.store (m : RawMap) (key : String) (raw : Json) : RawMap :=
  fun k => if k = key then some raw else m k

/-- The members of a JSON object stored in a map, in order: a later member with the
same key replaces an earlier one. -/
def storeMembers (m : RawMap) : List (String × Json) → RawMap
  | [] => m
  | (key, raw) :: rest => storeMembers (m.store key raw) rest

/-- The keys that `encoding/json` takes for the field `Data`: the name itself or the
name in another letter case. -/
def matchesData (key : String) : Bool :=
  key.data.map Char.toLower == ['d', 'a', 't', 'a']

/-- The members of the top-level object decoded into `test`: a member whose key
matches `Data` sets the map to nil when its value is `null`, adds its members to the
map when it is an object, and is a type error otherwise; a member with another key is
skipped. -/
def decodeTest (m : RawMap) : List (String × Json) → Except String RawMap
  | [] => .ok m
  | (key, value) :: rest =>
    if matchesData key then
      match value with
      | .null => decodeTest RawMap.empty rest
      | .object members => decodeTest (storeMembers m members) rest
      | _ => .error "json: cannot unmarshal into Go struct field .Data"
    else decodeTest m rest

/-- The call `json.Unmarshal(data, &test)`: the map `test.Data` afterwards, or the
error. A payload that is not valid JSON is a syntax error; `null` leaves `test` as it
is; an object is decoded member by member; any other document is a type error. -/
def jsonUnmarshalTest : Option Json → Except String RawMap
  | none => .error "json: syntax error"
  | some .null => .ok RawMap.empty
  | some (.object members) => decodeTest RawMap.empty members
  | some _ => .error "json: cannot unmarshal into Go value of type struct"

/-- The loop of `Unmarshal` over the fields of the target, each with its value, when
every call of `field.Set` returns: the fields afterwards and the error (`none` for
`nil`). `unmarshalFieldsRun` is the same loop with the panic of `field.Set` made
explicit. The parameter `jsonUnmarshal` is `json.Unmarshal(raw, p.Interface())` on the
fresh `p := reflect.New(field.Type())`: the value decoded, or the error. -/
def unmarshalFields {Val : Type} (table : Char → Char)
    (jsonUnmarshal : Ty → Json → Except String Val) (test : RawMap) :
    List (StructField × Val) → List (StructField × Val) × Option String
  | [] => ([], none)
  | (fieldType, field) :: rest =>
    let name := getName table fieldType
    match test name with
    | none =>
      let r := unmarshalFields table jsonUnmarshal test rest
      ((fieldType, field) :: r.1, r.2)
    | some raw =>
      match jsonUnmarshal fieldType.Typ raw with
      | .error err => ((fieldType, field) :: rest, some err)
      | .ok p =>
        let r := unmarshalFields table jsonUnmarshal test rest
        ((fieldType, p) :: r.1, r.2)

/-- `Unmarshal`: from the payload and the target (a pointer to a struct, given by its
fields and their values) to the target afterwards and the error. -/
def Unmarshal {Val : Type} (table : Char → Char)
    (jsonUnmarshal : Ty → Json → Except String Val) (data : Option Json)
    (obj : List (StructField × Val)) : List (StructField × Val) × Option String :=
  match jsonUnmarshalTest data with
  | .error err => (obj, some err)
  | .ok test => unmarshalFields table jsonUnmarshal test obj

/-! ## Calls that panic

The functions above give what a call does when it returns. A call of `Query.Marshal`
or of `Unmarshal` may also panic: on a nil object, in the method `MarshalGraphQL` of a
type, and in `field.Set` on a field that cannot be set. The functions below follow
the same source with the outcome of each call made explicit; no function of the
package recovers from a panic or defers a call, so a panic ends every call that is
running. -/

/-- The outcome of a call: it returns a value, or it panics with a message. -/
inductive Outcome (α : Type) where
  | returns (a : α)
  | panics (message : String)

/-- The panic of the runtime on a nil pointer or a nil interface. -/
def nilDereference : String :=
  "runtime error: invalid memory address or nil pointer dereference"

/-- The panic of `reflect.Value.Set` on a field that cannot be set. -/
def unsettable : String :=
  "reflect: reflect.Value.Set using value obtained using unexported field"

/-- `Writer.Scope` with a body that may panic: the opening line, the body one level
deeper and, when the body returns, the level taken back by one and the closing line.
When the body panics nothing more is written. -/
def Writer.ScopeRun (w : Writer) (label : String) (f : Writer → Outcome Writer) :
    Outcome Writer :=
  let w1 := if label.length > 0 then w.Println [label, "\x7b"] else w.Println ["\x7b"]
  let w2 := { w1 with level := w1.level + 1 }
  match f w2 with
  | .panics message => .panics message
  | .returns w3 =>
    let w4 := { w3 with level := w3.level - 1 }
    .returns (w4.Println ["\x7d"])

mutual
/-- `query` with its outcome. The parameter `panics` says of a struct type, a writer
and a name whether the call
`reflect.New(ty).Interface().(Marshaler).MarshalGraphQL(w, name)` panics instead of
returning: it does for every writer and name when the method is promoted from a
pointer that the type embeds, which is nil in the zero value that `reflect.New` gives.
Where the call returns, it does what the method of the type does. -/
def queryRun (table : Char → Char) (panics : Ty → Writer → String → Bool)
    (w : Writer) (name : String) : Ty → Outcome Writer
  | .Struct tyName fields marshal =>
    if tyName = ConnectionName then
      queryStructRun table panics w fields
    else
      match marshal with
      | some m =>
        if panics (.Struct tyName fields marshal) w name then .panics nilDereference
        else
          match m w name with
          | (w1, some _) => .returns w1
          | (w1, none) => .returns w1
      | none => w.ScopeRun name (fun v => queryStructRun table panics v fields)
  | .Slice elem _ => queryRun table panics w name elem
  | .Other _ => .returns (w.Println [name])
/-- The closure `queryStruct` with its outcome: each field in turn, as long as the
calls return. -/
def queryStructRun (table : Char → Char) (panics : Ty → Writer → String → Bool)
    (w : Writer) : List StructField → Outcome Writer
  | [] => .returns w
  | .mk fieldName tag fieldType :: rest =>
    let field := StructField.mk fieldName tag fieldType
    match queryRun table panics w (getNameAndArguments table field) fieldType with
    | .panics message => .panics message
    | .returns w1 => queryStructRun table panics w1 rest
end

/-- A `Query` as `NewQuery` builds it from any `interface\x7b\x7d`: the field `object`
holds a value of some type, or nothing when it is the nil interface. -/
structure AnyQuery where
  name : String
  object : Option Ty
  vars : List queryVariable

/-- `Query.Marshal` with its outcome. For a nil object `reflect.TypeOf` gives the nil
`reflect.Type`, and the call `qType.Kind()` on it panics. -/
def AnyQuery.Marshal (table : Char → Char) (panics : Ty → Writer → String → Bool)
    (q : AnyQuery) : Outcome (Except String String) :=
  match q.object with
  | none => .panics nilDereference
  | some qType =>
    if qType.Kind ≠ Kind.Struct ∨ qType.NumField = 0 then
      .returns (.error "query object must be a non-empty struct")
    else
      match Writer.new.ScopeRun (Query.signature ⟨q.name, qType, q.vars⟩)
          (fun v => queryStructRun table panics v qType.Fields) with
      | .panics message => .panics message
      | .returns w => .returns (.ok w.Bytes)

/-- The loop of `Unmarshal` with its outcome: the fields when the call ends, and
whether it returned (with the error, `none` for `nil`) or panicked. The parameter
`canSet` is `field.CanSet()`: for a target that is a pointer to a struct it holds of
the exported fields. `field.Set` panics on a field that cannot be set; it is reached
only after the raw value has been decoded without error. -/
def unmarshalFieldsRun {Val : Type} (table : Char → Char)
    (jsonUnmarshal : Ty → Json → Except String Val) (canSet : StructField → Bool)
    (test : RawMap) :
    List (StructField × Val) → List (StructField × Val) × Outcome (Option String)
  | [] => ([], .returns none)
  | (fieldType, field) :: rest =>
    let name := getName table fieldType
    match test name with
    | none =>
      let r := unmarshalFieldsRun table jsonUnmarshal canSet test rest
      ((fieldType, field) :: r.1, r.2)
    | some raw =>
      match jsonUnmarshal fieldType.Typ raw with
      | .error err => ((fieldType, field) :: rest, .returns (some err))
      | .ok p =>
        if canSet fieldType then
          let r := unmarshalFieldsRun table jsonUnmarshal canSet test rest
          ((fieldType, p) :: r.1, r.2)
        else ((fieldType, field) :: rest, .panics unsettable)

/-- `Unmarshal` with its outcome, for a target that is a pointer to a struct. -/
def UnmarshalRun {Val : Type} (table : Char → Char)
    (jsonUnmarshal : Ty → Json → Except String Val) (canSet : StructField → Bool)
    (data : Option Json) (obj : List (StructField × Val)) :
    List (StructField × Val) × Outcome (Option String) :=
  match jsonUnmarshalTest data with
  | .error err => (obj, .returns (some err))
  | .ok test => unmarshalFieldsRun table jsonUnmarshal canSet test obj

/-! ## Vocabulary of the statements -/

/-- The indentation of a line at a level: two spaces per level. -/
def indentation : Nat → String
  | 0 => ""
  | n + 1 => "  " ++ indentation n

/-- A line of text at a level: the indentation, the text, a newline. -/
def textLine (level : Int) (text : String) : String :=
  indentation level.toNat ++ text ++ "\n"

/-- The line that opens a scope. -/
def openLine (label : String) : String :=
  if label.length > 0 then label ++ " \x7b\n" else "\x7b\n"

/-- The argument annotation of a field as it appears after the name: the tag in
parentheses, or nothing when the field has no annotation. -/
def annotation (field : StructField) : String :=
  match field.Tag with
  | some a => "(" ++ a ++ ")"
  | none => ""

/-- The line that `query` writes for a leaf field at a level. -/
def leafLine (table : Char → Char) (level : Int) (field : StructField) : String :=
  indentation level.toNat ++ getNameAndArguments table field ++ "\n"

/-- The lines of a list of leaf fields at a level, in order. -/
def leafLines (table : Char → Char) (level : Int) : List StructField → String
  | [] => ""
  | field :: rest => leafLine table level field ++ leafLines table level rest

/-- The lines that the members of `Connection` make at a level: the leaf
`totalCount`, then the scope `pageInfo` with its four leaves one level deeper. -/
def connectionLines (level : Int) : String :=
  textLine level "totalCount"
    ++ textLine level "pageInfo \x7b"
    ++ textLine (level + 1) "hasNextPage"
    ++ textLine (level + 1) "hasPreviousPage"
    ++ textLine (level + 1) "startCursor"
    ++ textLine (level + 1) "endCursor"
    ++ textLine level "\x7d"

/-- The declarations `DefineVariable(n1, t1)`, ..., `DefineVariable(nk, tk)` made on a
query, in that order. -/
def defineAll (q : Query) (decls : List (String × String)) : Query :=
  decls.foldl (fun acc d => acc.DefineVariable d.1 d.2) q

/-- The type `[]...[]T`: `ty` under one slice type per entry of the list, the outermost
first; an entry is the `MarshalGraphQL` of that slice type, if it has one. -/
def wrapSlices : List (Option Marshaler) → Ty → Ty
  | [], ty => ty
  | m :: ms, ty => .Slice (wrapSlices ms ty) m

/-- A place for fields in a shape: among the fields of the root (`here`), or further
down, among the fields of a struct that is the type of a field, or the element type of
its list type (`inside`). -/
inductive Position where
  | here (before after : List StructField)
  | inside (before : List StructField) (fieldName : String) (tag : Option String)
      (slices : List (Option Marshaler)) (tyName : String) (marshal : Option Marshaler)
      (inner : Position) (after : List StructField)

/-- The fields of the root once the fields `xs` are put at the position. -/
def Position.fill : Position → List StructField → List StructField
  | .here before after, xs => before ++ xs ++ after
  | .inside before fieldName tag slices tyName marshal inner after, xs =>
    before
      ++ .mk fieldName tag (wrapSlices slices (.Struct tyName (inner.fill xs) marshal))
      :: after

/-- A renderer that only appends to the buffer: what was written before it ran is
still there, as the beginning of the buffer, when it returns. -/
def appendOnly (m : Marshaler) : Prop :=
  ∀ (w : Writer) (name : String), ∃ s : String, (m w name).1.buf = w.buf ++ s

mutual
/-- Every renderer that `query` invokes on the type only appends to the buffer. -/
def Ty.AppendOnly : Ty → Prop
  | .Struct tyName fields marshal =>
    if tyName = ConnectionName then fieldsAppendOnly fields
    else
      match marshal with
      | some m => appendOnly m
      | none => fieldsAppendOnly fields
  | .Slice elem _ => Ty.AppendOnly elem
  | .Other _ => True
/-- Every renderer that `query` invokes on the fields only appends to the buffer. -/
def fieldsAppendOnly : List StructField → Prop
  | [] => True
  | .mk _ _ fieldType :: rest => Ty.AppendOnly fieldType ∧ fieldsAppendOnly rest
end

/-! ## The shapes of the tests -/

/-- A case table for the examples, whose names are ASCII: it is never looked up. -/
def sampleTable : Char → Char := fun c => c

/-- The shape of `TestArguments`. -/
def testArguments : Ty :=
  .Struct ""
    [ .mk "Human" (some "id: \"1000\"")
        (.Struct "" [ .mk "Name" none Ty.basic, .mk "Height" (some "unit: FOOT") Ty.basic ] none)
    ] none

/-- The type of the field `Test` of `TestMarshalGraphQL`: it embeds `HideStruct`, whose
`MarshalGraphQL` is promoted into its method set. -/
def testHidden : Ty :=
  .Struct "" [ .mk "HideStruct" none HideStruct, .mk "Name" none Ty.basic ]
    (some HideStruct.MarshalGraphQL)

/-- The shape of `TestMarshalGraphQL`. -/
def testMarshalGraphQL : Ty :=
  .Struct ""
    [ .mk "Human" (some "id: \"1000\"")
        (.Struct ""
          [ .mk "Name" none Ty.basic,
            .mk "Height" (some "unit: FOOT") Ty.basic,
            .mk "Test" none testHidden ] none) ] none

/-- The shape of `TestVariables`. -/
def testVariables : Ty :=
  .Struct ""
    [ .mk "Hero" (some "episode: $episode")
        (.Struct ""
          [ .mk "Name" none Ty.basic,
            .mk "Friends" none (.Slice (.Struct "" [ .mk "Name" none Ty.basic ] none) none) ]
          none)
    ] none

/-- The type of the field `Edges` of `TestConnection`. -/
def testEdges : Ty :=
  .Slice (.Struct ""
    [ .mk "Node" none (.Struct "" [ .mk "Name" none Ty.basic ] none),
      .mk "Cursor" none Ty.basic ] none) none

/-- The type of the field `FriendsConnection` of `TestConnection`: the list of edges
and the embedded `Connection`. -/
def testFriendsConnection : Ty :=
  .Struct "" [ .mk "Edges" none testEdges, .mk "Connection" none Connection ] none

/-- The shape of `TestConnection`. -/
def testConnection : Ty :=
  .Struct ""
    [ .mk "Hero" none
        (.Struct ""
          [ .mk "Name" none Ty.basic,
            .mk "FriendsConnection" (some "first:2 after:\"Y3Vyc29yMQ==\"")
              testFriendsConnection ] none) ] none

/-- A root shape of three scalar leaves, the second one annotated. -/
def threeLeaves : Ty :=
  .Struct ""
    [ .mk "Name" none Ty.basic,
      .mk "Height" (some "unit: FOOT") Ty.basic,
      .mk "HomeURL" none Ty.basic ] none

/-! ## Renderers that a caller may write -/

/-- The method `Reset` of the embedded buffer: the content is dropped. -/
def Writer.Reset (w : Writer) : Writer :=
  { w with buf := "" }

/-- A renderer written by a caller:
`func (Hero) MarshalGraphQL(w *Writer, name string) error { w.Reset(); w.Println(name); return nil }`. -/
def resetThenPrint : Marshaler :=
  fun w name => (w.Reset.Println [name], none)

/-- A root shape with one field, of a struct type rendered by `resetThenPrint`. -/
def resettingShape : Ty :=
  .Struct "" [ .mk "Hero" none (.Struct "main.Hero" [ .mk "Name" none Ty.basic ]
    (some resetThenPrint)) ] none

/-- A renderer written by a caller, which renders the field as a scope of one leaf:
`func (T) MarshalGraphQL(w *Writer, name string) error {
   w.Scope(name, func() { w.Println("label") }); return nil }`. -/
def scopeRenderer : Marshaler :=
  fun w name => (w.Scope name (fun v => v.Println ["label"]), none)

/-- A renderer written by a caller, which writes a line and then fails:
`func (T) MarshalGraphQL(w *Writer, name string) error {
   w.Println(name, "{"); return errors.New("no selection") }`. -/
def failAfterWriting : Marshaler :=
  fun w name => (w.Println [name, "\x7b"], some "no selection")

/-- A renderer written by a caller, which fails at once:
`func (T) MarshalGraphQL(w *Writer, name string) error { return errors.New("no selection") }`. -/
def failAtOnce : Marshaler :=
  fun w _ => (w, some "no selection")

/-- A field `Secret` of a struct type with the given renderer. -/
def secretField (m : Marshaler) : StructField :=
  .mk "Secret" none (.Struct "main.Secret" [ .mk "Key" none Ty.basic ] (some m))

/-- A root shape whose second field is `Secret`, rendered by the given renderer. -/
def renderedSecond (m : Marshaler) : Ty :=
  .Struct ""
    [ .mk "Name" none Ty.basic, secretField m, .mk "Height" none Ty.basic ] none

/-- The root shape `renderedSecond` without its second field. -/
def withoutSecond : Ty :=
  .Struct "" [ .mk "Name" none Ty.basic, .mk "Height" none Ty.basic ] none

/-- A root shape with the field `Secret`, rendered by the given renderer, one struct
down: `struct { Hero struct { Name string; Secret Secret; Height float32 } }`. -/
def renderedBelow (m : Marshaler) : Ty :=
  .Struct ""
    [ .mk "Hero" none
        (.Struct "" [ .mk "Name" none Ty.basic, secretField m, .mk "Height" none Ty.basic ]
          none) ] none

/-! ## Vocabulary of the statements: names -/

/-- Every occurrence of `old` in a text replaced by `new`, in the words of the
specification: a text with no occurrence of `old` is left as it is; otherwise the text
is `p ++ old ++ rest` where the occurrence after `p` is the first one, and the result
is `p`, then `new`, then `rest` with every occurrence replaced. -/
inductive EveryReplaced (old new : List Char) : List Char → List Char → Prop where
  | done {s : List Char} (h : ¬ old <:+: s) : EveryReplaced old new s s
  | step {p rest r : List Char} (hp : ¬ old <:+: p ++ old.dropLast)
      (hr : EveryReplaced old new rest r) :
      EveryReplaced old new (p ++ old ++ rest) (p ++ new ++ r)

/-! ## Vocabulary of the statements: the ID codec -/

/-- The bytes of an ASCII text. -/
def asciiBytes (s : String) : List Nat :=
  s.data.map Char.toNat

/-- The byte of the standard base64 alphabet for a value below 64. -/
def base64Char (v : Nat) : Nat :=
  if v < 26 then v + 65
  else if v < 52 then v + 71
  else if v < 62 then v - 4
  else if v = 62 then 43
  else 47

/-- The standard base64 encoding, with padding, of a list of bytes. -/
def base64Encode : List Nat → List Nat
  | a :: b :: c :: rest =>
    base64Char (a / 4) :: base64Char (a % 4 * 16 + b / 16)
      :: base64Char (b % 16 * 4 + c / 64) :: base64Char (c % 64) :: base64Encode rest
  | [a, b] =>
    [base64Char (a / 4), base64Char (a % 4 * 16 + b / 16), base64Char (b % 16 * 4), 61]
  | [a] => [base64Char (a / 4), base64Char (a % 4 * 16), 61, 61]
  | [] => []

/-- The decimal digits of a natural number, the most significant first; the first
argument bounds the number of digits. -/
def decimalDigits : Nat → Nat → List Nat
  | 0, _ => []
  | fuel + 1, n =>
    if n < 10 then [48 + n] else decimalDigits fuel (n / 10) ++ [48 + n % 10]

/-- The decimal text of an integer, as `strconv.Itoa` writes it. -/
def decimal (n : Int) : List Nat :=
  if n < 0 then 45 :: decimalDigits (n.natAbs + 1) n.natAbs
  else decimalDigits (n.natAbs + 1) n.natAbs

/-! ## Vocabulary of the statements: the response binder -/

/-- The value of a key in a JSON object: the value of its last member with that key. -/
def memberValue (key : String) : List (String × Json) → Option Json
  | [] => none
  | (k, v) :: rest =>
    match memberValue key rest with
    | some later => some later
    | none => if key = k then some v else none

/-- The fields before a failure once bound: a field whose key is in the map with a
raw value that decodes holds the decoded value, any other field is as it was. -/
def boundFields {Val : Type} (table : Char → Char)
    (jsonUnmarshal : Ty → Json → Except String Val) (test : RawMap)
    (fields : List (StructField × Val)) : List (StructField × Val) :=
  fields.map fun b =>
    match test (getName table b.1) with
    | none => b
    | some raw =>
      match jsonUnmarshal b.1.Typ raw with
      | .ok p => (b.1, p)
      | .error _ => b

/-- A decoder for the examples: the value of a field is the JSON it was given; a
struct takes an object or `null`, a list takes an array or `null`, every other type
takes anything but an object or an array. -/
def sampleDecode : Ty → Json → Except String Json
  | .Struct _ _ _, .object members => .ok (.object members)
  | .Struct _ _ _, .null => .ok .null
  | .Struct _ _ _, _ => .error "json: cannot unmarshal into Go value of type struct"
  | .Slice _ _, .array elems => .ok (.array elems)
  | .Slice _ _, .null => .ok .null
  | .Slice _ _, _ => .error "json: cannot unmarshal into Go value of type slice"
  | .Other _, .object _ => .error "json: cannot unmarshal object into Go value"
  | .Other _, .array _ => .error "json: cannot unmarshal array into Go value"
  | .Other _, raw => .ok raw

/-- The `hero` object of the response of `TestConnection`. -/
def heroJson : Json :=
  .object
    [ ("name", .string "R2-D2"),
      ("friendsConnection", .object
        [ ("totalCount", .number "3"),
          ("edges", .array
            [ .object [ ("node", .object [("name", .string "Han Solo")]),
                        ("cursor", .string "Y3Vyc29yMg==") ],
              .object [ ("node", .object [("name", .string "Leia Organa")]),
                        ("cursor", .string "Y3Vyc29yMw==") ] ]),
          ("pageInfo", .object
            [ ("hasNextPage", .bool false),
              ("startCursor", .string "Y3Vyc29yMg=="),
              ("endCursor", .string "Y3Vyc29yMw==") ]) ]) ]

/-- The response of `TestConnection`. -/
def testResponse : Json :=
  .object [ ("data", .object [ ("hero", heroJson) ]) ]

/-- The field `Hero` of the target of `TestConnection`. -/
def heroField : StructField :=
  .mk "Hero" none
    (.Struct ""
      [ .mk "Name" none Ty.basic,
        .mk "FriendsConnection" (some "first:2 after:\"Y3Vyc29yMQ==\"")
          testFriendsConnection ] none)

/-- A response with the keys `name`, `hero` and `height` under `data`. -/
def flatResponse : Json :=
  .object
    [ ("data", .object
        [ ("name", .string "R2-D2"), ("hero", heroJson), ("height", .number "1.09") ]) ]

/-- A target for `flatResponse` whose field `Hero` is declared as a list. -/
def flatTarget : List (StructField × Json) :=
  [ (.mk "Name" none Ty.basic, .string ""),
    (.mk "Hero" none (.Slice Ty.basic none), .null),
    (.mk "Height" none Ty.basic, .number "0") ]

/-- A response with errors and no key `data`. -/
def errorsResponse : Json :=
  .object [ ("errors", .array [ .object [ ("message", .string "not found") ] ]) ]

/-! ## Vocabulary of the statements: braces and indentation -/

/-- The number of opening braces of a text less the number of its closing braces. -/
def excess (s : String) : Int :=
  (s.data.count '\x7b' : Int) - (s.data.count '\x7d' : Int)

/-- A renderer that keeps the balance of braces: called with a name that has as many
opening braces as closing ones, it leaves the buffer with the excess of opening braces
that it found. -/
def keepsExcess (m : Marshaler) : Prop :=
  ∀ (w : Writer) (name : String), excess name = 0 → excess (m w name).1.buf = excess w.buf

mutual
/-- The names with annotations that `query` writes for the type have as many opening
braces as closing ones, and the renderers it invokes keep the balance. -/
def Ty.Balanced (table : Char → Char) : Ty → Prop
  | .Struct tyName fields marshal =>
    if tyName = ConnectionName then fieldsBalanced table fields
    else
      match marshal with
      | some m => keepsExcess m
      | none => fieldsBalanced table fields
  | .Slice elem _ => Ty.Balanced table elem
  | .Other _ => True
/-- The same for a list of fields: the name with annotation of each field is balanced,
and so is its type. -/
def fieldsBalanced (table : Char → Char) : List StructField → Prop
  | [] => True
  | .mk fieldName tag fieldType :: rest =>
    excess (getNameAndArguments table (.mk fieldName tag fieldType)) = 0
      ∧ Ty.Balanced table fieldType ∧ fieldsBalanced table rest
end

mutual
/-- Every renderer that `query` invokes on the type is the one of `HideStruct`. -/
def Ty.Standard : Ty → Prop
  | .Struct tyName fields marshal =>
    if tyName = ConnectionName then fieldsStandard fields
    else
      match marshal with
      | some m => m = HideStruct.MarshalGraphQL
      | none => fieldsStandard fields
  | .Slice elem _ => Ty.Standard elem
  | .Other _ => True
/-- Every renderer that `query` invokes on the fields is the one of `HideStruct`. -/
def fieldsStandard : List StructField → Prop
  | [] => True
  | .mk _ _ fieldType :: rest => Ty.Standard fieldType ∧ fieldsStandard rest
end

mutual
/-- The text of a field in the words of the specification, at a depth of nesting: a
field of a nested shape is the line of its name and an opening brace, its members one
level deeper, and the line of the closing brace; a list is its element; the members of
a `Connection` stand at the depth of the field; a leaf, and a field rendered by
`HideStruct`, is the line of its name. Every line starts with two spaces per level of
depth. -/
def expectedText (table : Char → Char) (depth : Nat) (label : String) : Ty → String
  | .Struct tyName fields marshal =>
    if tyName = ConnectionName then expectedFields table depth fields
    else
      match marshal with
      | some _ => indentation depth ++ label ++ "\n"
      | none =>
        indentation depth ++ openLine label ++ expectedFields table (depth + 1) fields
          ++ indentation depth ++ "\x7d\n"
  | .Slice elem _ => expectedText table depth label elem
  | .Other _ => indentation depth ++ label ++ "\n"
/-- The texts of the fields of a list, in order, at a depth of nesting. -/
def expectedFields (table : Char → Char) (depth : Nat) : List StructField → String
  | [] => ""
  | .mk fieldName tag fieldType :: rest =>
    expectedText table depth (getNameAndArguments table (.mk fieldName tag fieldType))
        fieldType
      ++ expectedFields table depth rest
end

/-- A root shape whose field `Human` carries the annotation `name: "{"`: an opening
brace inside a string argument. -/
def braceShape : Ty :=
  .Struct ""
    [ .mk "Human" (some "name: \"\x7b\"")
        (.Struct "" [ .mk "Name" none Ty.basic ] none) ] none

/-- A renderer written by a caller, which writes the name to the writer as to any
`io.Writer`: `func (T) MarshalGraphQL(w *Writer, name string) error {
   fmt.Fprintln(w, name); return nil }`. -/
def plainRenderer : Marshaler :=
  fun w name => (w.WriteString (fmtSprintln [name]), none)

/-- A renderer written by a caller, which starts the writer afresh:
`func (T) MarshalGraphQL(w *Writer, name string) error { *w = Writer\x7b\x7d; return nil }`. -/
def freshRenderer : Marshaler :=
  fun _ _ => (Writer.new, none)

/-! ## Vocabulary of the statements: calls that return -/

mutual
/-- No call of a renderer that `query` makes on the type panics. -/
def Ty.Returning (panics : Ty → Writer → String → Bool) : Ty → Prop
  | .Struct tyName fields marshal =>
    if tyName = ConnectionName then fieldsReturning panics fields
    else
      match marshal with
      | some _ =>
        ∀ (w : Writer) (name : String), panics (.Struct tyName fields marshal) w name = false
      | none => fieldsReturning panics fields
  | .Slice elem _ => Ty.Returning panics elem
  | .Other _ => True
/-- No call of a renderer that `query` makes on the fields panics. -/
def fieldsReturning (panics : Ty → Writer → String → Bool) : List StructField → Prop
  | [] => True
  | .mk _ _ fieldType :: rest => Ty.Returning panics fieldType ∧ fieldsReturning panics rest
end

/-- The calls that panic in the examples: those on a struct type with the method
whose first field is of a pointer type with the method. In the examples that field
is the embedded `*HideStruct`, from which the method is promoted: the pointer is nil
in the zero value. -/
def promotedFromPointer : Ty → Writer → String → Bool
  | .Struct _ (.mk _ _ (.Other (some _)) :: _) (some _), _, _ => true
  | _, _, _ => false

/-- The type `*HideStruct`: of kind pointer, with `MarshalGraphQL` in its method
set. -/
def HideStructPointer : Ty := .Other (some HideStruct.MarshalGraphQL)

/-- The type `struct \x7b *HideStruct; Name string \x7d`: the method is promoted from
the embedded pointer. -/
def testHiddenPointer : Ty :=
  .Struct "" [ .mk "HideStruct" none HideStructPointer, .mk "Name" none Ty.basic ]
    (some HideStruct.MarshalGraphQL)

/-- The fields of a pointer to a struct that can be set, for the names of the
examples: those whose name starts with a capital letter. -/
def isExported (field : StructField) : Bool :=
  match field.Name.data with
  | [] => false
  | c :: _ => c.isUpper

/-- A target for `flatResponse` whose first field `name` is not exported and whose
field `Hero` is declared as a list: `struct \x7b name string; Hero []string;
Height float32 \x7d`. -/
def unexportedTarget : List (StructField × Json) :=
  [ (.mk "name" none Ty.basic, .string ""),
    (.mk "Hero" none (.Slice Ty.basic none), .null),
    (.mk "Height" none Ty.basic, .number "0") ]

/-! ## The writer -/

theorem iterate_WriteString (n : Nat) (w : Writer) :
    Nat.iterate (fun v => Writer.WriteString v "  ") n w
      = ⟨w.buf ++ indentation n, w.level⟩ := by
  induction n generalizing w with
  | zero => simp [indentation, Nat.iterate]
  | succ n ih =>
    show Nat.iterate (fun v => Writer.WriteString v "  ") n (w.WriteString "  ") = _
    rw [ih]
    simp only [Writer.WriteString, indentation, String.append_assoc]

theorem Indent_eq (w : Writer) :
    w.Indent = ⟨w.buf ++ indentation w.level.toNat, w.level⟩ := by
  unfold Writer.Indent
  exact iterate_WriteString _ w

theorem Println_eq (w : Writer) (a : List String) :
    w.Println a = ⟨w.buf ++ (indentation w.level.toNat ++ fmtSprintln a), w.level⟩ := by
  unfold Writer.Println
  rw [Indent_eq]
  simp [Writer.WriteString, String.append_assoc]

theorem Println_level (w : Writer) (a : List String) : (w.Println a).level = w.level := by
  rw [Println_eq]

theorem Scope_eq (w : Writer) (label : String) (f : Writer → Writer) :
    w.Scope label f =
      ⟨(f ⟨w.buf ++ (indentation w.level.toNat ++ openLine label), w.level + 1⟩).buf
          ++ (indentation ((f ⟨w.buf ++ (indentation w.level.toNat ++ openLine label),
                w.level + 1⟩).level - 1).toNat ++ "\x7d\n"),
        (f ⟨w.buf ++ (indentation w.level.toNat ++ openLine label), w.level + 1⟩).level - 1⟩ := by
  unfold Writer.Scope openLine
  by_cases h : label.length > 0
  · simp only [h, if_true, Println_eq, fmtSprintln, stringsJoin, String.append_assoc]
    rfl
  · simp only [h, if_false, Println_eq, fmtSprintln, stringsJoin, String.append_assoc]
    rfl

/-! ## The walker, case by case -/

theorem query_Other (table : Char → Char) (w : Writer) (name : String)
    (m : Option Marshaler) : query table w name (.Other m) = w.Println [name] := by
  simp only [query]

theorem query_Slice (table : Char → Char) (w : Writer) (name : String) (elem : Ty)
    (m : Option Marshaler) : query table w name (.Slice elem m) = query table w name elem := by
  simp only [query]

theorem query_Connection (table : Char → Char) (w : Writer) (name : String)
    (fields : List StructField) (m : Option Marshaler) :
    query table w name (.Struct ConnectionName fields m) = queryStruct table w fields := by
  simp only [query, if_true]

theorem query_rendered (table : Char → Char) (w : Writer) (name tyName : String)
    (fields : List StructField) (m : Marshaler) (h : tyName ≠ ConnectionName) :
    query table w name (.Struct tyName fields (some m)) = (m w name).1 := by
  simp only [query, h, if_false]
  split <;> simp_all

theorem query_plain (table : Char → Char) (w : Writer) (name tyName : String)
    (fields : List StructField) (h : tyName ≠ ConnectionName) :
    query table w name (.Struct tyName fields none)
      = w.Scope name (fun v => queryStruct table v fields) := by
  simp only [query, h, if_false]

theorem queryStruct_nil (table : Char → Char) (w : Writer) :
    queryStruct table w [] = w := by
  simp only [queryStruct]

theorem queryStruct_cons (table : Char → Char) (w : Writer) (field : StructField)
    (rest : List StructField) :
    queryStruct table w (field :: rest)
      = queryStruct table (query table w (getNameAndArguments table field) field.Typ) rest := by
  cases field
  simp only [queryStruct, StructField.Typ]

theorem queryStruct_append (table : Char → Char) (w : Writer) (xs ys : List StructField) :
    queryStruct table w (xs ++ ys) = queryStruct table (queryStruct table w xs) ys := by
  induction xs generalizing w with
  | nil => simp only [List.nil_append, queryStruct_nil]
  | cons x xs ih => simp only [List.cons_append, queryStruct_cons, ih]

theorem query_leaf (table : Char → Char) (w : Writer) (name : String) (ty : Ty)
    (h : ty.Kind = Kind.Other) : query table w name ty = w.Println [name] := by
  cases ty with
  | Other m => exact query_Other table w name m
  | Slice e m => simp [Ty.Kind] at h
  | Struct n f m => simp [Ty.Kind] at h

theorem queryStruct_leaves (table : Char → Char) (fields : List StructField) (w : Writer)
    (h : ∀ f ∈ fields, f.Typ.Kind = Kind.Other) :
    queryStruct table w fields = ⟨w.buf ++ leafLines table w.level fields, w.level⟩ := by
  induction fields generalizing w with
  | nil => simp [queryStruct_nil, leafLines]
  | cons f rest ih =>
    have hf : f.Typ.Kind = Kind.Other := h f (List.mem_cons_self _ _)
    have hrest : ∀ g ∈ rest, g.Typ.Kind = Kind.Other :=
      fun g hg => h g (List.mem_cons_of_mem _ hg)
    rw [queryStruct_cons, query_leaf table w _ _ hf, ih _ hrest, Println_eq]
    simp only [leafLines, leafLine, fmtSprintln, stringsJoin, String.append_assoc]

/-! ## Renderers that only append -/

theorem Scope_appends (w : Writer) (label : String) (f : Writer → Writer)
    (hf : ∀ v : Writer, ∃ s : String, (f v).buf = v.buf ++ s) :
    ∃ s : String, (w.Scope label f).buf
      = w.buf ++ (indentation w.level.toNat ++ openLine label) ++ s := by
  obtain ⟨s, hs⟩ := hf ⟨w.buf ++ (indentation w.level.toNat ++ openLine label), w.level + 1⟩
  refine ⟨s ++ (indentation ((f ⟨w.buf ++ (indentation w.level.toNat ++ openLine label),
                w.level + 1⟩).level - 1).toNat ++ "\x7d\n"), ?_⟩
  rw [Scope_eq]
  simp only [hs, String.append_assoc]

mutual
theorem query_appends (table : Char → Char) :
    ∀ (ty : Ty) (w : Writer) (name : String), ty.AppendOnly →
      ∃ s : String, (query table w name ty).buf = w.buf ++ s
  | .Struct tyName fields marshal, w, name, h => by
    by_cases hc : tyName = ConnectionName
    · subst hc
      rw [query_Connection]
      exact queryStruct_appends table fields w (by simpa [Ty.AppendOnly] using h)
    · cases marshal with
      | some m =>
        rw [query_rendered table w name tyName fields m hc]
        have hm : appendOnly m := by simpa [Ty.AppendOnly, hc] using h
        exact hm w name
      | none =>
        rw [query_plain table w name tyName fields hc]
        have hfs : fieldsAppendOnly fields := by simpa [Ty.AppendOnly, hc] using h
        obtain ⟨s, hs⟩ := Scope_appends w name (fun v => queryStruct table v fields)
          (fun v => queryStruct_appends table fields v hfs)
        exact ⟨_, by rw [hs, String.append_assoc]⟩
  | .Slice elem m, w, name, h => by
    rw [query_Slice]
    exact query_appends table elem w name (by simpa [Ty.AppendOnly] using h)
  | .Other m, w, name, _ => by
    rw [query_Other, Println_eq]
    exact ⟨_, rfl⟩
theorem queryStruct_appends (table : Char → Char) :
    ∀ (fields : List StructField) (w : Writer), fieldsAppendOnly fields →
      ∃ s : String, (queryStruct table w fields).buf = w.buf ++ s
  | [], w, _ => ⟨"", by simp [queryStruct_nil]⟩
  | .mk fieldName tag fieldType :: rest, w, h => by
    rw [queryStruct_cons]
    have h12 : Ty.AppendOnly fieldType ∧ fieldsAppendOnly rest := by
      simpa [fieldsAppendOnly] using h
    obtain ⟨s1, e1⟩ := query_appends table fieldType w
      (getNameAndArguments table (.mk fieldName tag fieldType)) h12.1
    obtain ⟨s2, e2⟩ := queryStruct_appends table rest
      (query table w (getNameAndArguments table (.mk fieldName tag fieldType)) fieldType) h12.2
    exact ⟨s1 ++ s2, by simp only [StructField.Typ, e2, e1, String.append_assoc]⟩
end

theorem Marshal_eq_Scope (table : Char → Char) (q : Query)
    (hk : q.object.Kind = Kind.Struct) (hn : q.object.NumField ≠ 0) :
    q.Marshal table
      = .ok (Writer.new.Scope q.signature (fun v => queryStruct table v q.object.Fields)).buf := by
  simp [Query.Marshal, hk, hn, Writer.Bytes]

theorem Marshal_first_line (table : Char → Char) (q : Query)
    (hk : q.object.Kind = Kind.Struct) (hn : q.object.NumField ≠ 0)
    (ha : fieldsAppendOnly q.object.Fields) :
    ∃ rest : String, q.Marshal table = .ok (openLine q.signature ++ rest) := by
  obtain ⟨s, hs⟩ := Scope_appends Writer.new q.signature
    (fun v => queryStruct table v q.object.Fields)
    (fun v => queryStruct_appends table q.object.Fields v ha)
  refine ⟨s, ?_⟩
  rw [Marshal_eq_Scope table q hk hn, hs]
  simp [Writer.new, indentation]

/-! ## Lists, and fields at a position -/

theorem query_wrapSlices (table : Char → Char) (w : Writer) (name : String) (ty : Ty)
    (slices : List (Option Marshaler)) :
    query table w name (wrapSlices slices ty) = query table w name ty := by
  induction slices with
  | nil => rfl
  | cons m ms ih => rw [wrapSlices, query_Slice, ih]

theorem query_congr_fields (table : Char → Char) (tyName : String)
    (marshal : Option Marshaler) (xs ys : List StructField)
    (h : ∀ v : Writer, queryStruct table v xs = queryStruct table v ys)
    (w : Writer) (name : String) :
    query table w name (.Struct tyName xs marshal)
      = query table w name (.Struct tyName ys marshal) := by
  by_cases hc : tyName = ConnectionName
  · subst hc
    rw [query_Connection, query_Connection, h]
  · cases marshal with
    | some m => rw [query_rendered _ _ _ _ _ _ hc, query_rendered _ _ _ _ _ _ hc]
    | none =>
      rw [query_plain _ _ _ _ _ hc, query_plain _ _ _ _ _ hc]
      congr 1
      funext v
      exact h v

theorem fill_congr (table : Char → Char) (xs ys : List StructField)
    (h : ∀ v : Writer, queryStruct table v xs = queryStruct table v ys)
    (pos : Position) :
    ∀ v : Writer, queryStruct table v (pos.fill xs) = queryStruct table v (pos.fill ys) := by
  induction pos with
  | here before after =>
    intro v
    simp only [Position.fill, queryStruct_append, h]
  | inside before fieldName tag slices tyName marshal inner after ih =>
    intro v
    simp only [Position.fill, queryStruct_append, queryStruct_cons, StructField.Typ,
      query_wrapSlices]
    rw [query_congr_fields table tyName marshal _ _ ih]
    rfl

theorem fill_ne_nil (pos : Position) (f : StructField) : pos.fill [f] ≠ [] := by
  cases pos <;> simp [Position.fill]

/-! ## Texts -/

theorem String_join_cons (a : String) (l : List String) :
    String.join (a :: l) = a ++ String.join l := by
  apply String.ext
  simp [String.data_join]

theorem getNameAndArguments_eq (table : Char → Char) (field : StructField) :
    getNameAndArguments table field = getName table field ++ annotation field := by
  unfold getNameAndArguments annotation
  cases field.Tag <;> simp [String.append_assoc]

theorem leafLines_eq_join (table : Char → Char) (level : Int) (fields : List StructField) :
    leafLines table level fields
      = String.join (fields.map fun f =>
          indentation level.toNat ++ getName table f ++ annotation f ++ "\n") := by
  induction fields with
  | nil => rfl
  | cons f rest ih =>
    simp only [leafLines, leafLine, List.map_cons, String_join_cons, ih,
      getNameAndArguments_eq, String.append_assoc]

/-! ## Signatures -/

theorem stringsJoin_append_head (x y sep : String) (l : List String) :
    stringsJoin ((x ++ y) :: l) sep = x ++ stringsJoin (y :: l) sep := by
  cases l with
  | nil => rfl
  | cons b l => simp only [stringsJoin, String.append_assoc]

theorem intercalate_go_eq (sep : String) (l : List String) (acc : String) :
    String.intercalate.go acc sep l = stringsJoin (acc :: l) sep := by
  induction l generalizing acc with
  | nil => rfl
  | cons a l ih =>
    rw [String.intercalate.go, ih, String.append_assoc, stringsJoin_append_head,
      stringsJoin_append_head]
    simp only [stringsJoin, String.append_assoc]

theorem stringsJoin_eq_intercalate (sep : String) (l : List String) :
    stringsJoin l sep = sep.intercalate l := by
  cases l with
  | nil => rfl
  | cons a l => rw [String.intercalate, intercalate_go_eq]

theorem defineAll_eq (q : Query) (decls : List (String × String)) :
    defineAll q decls
      = { q with vars := q.vars ++ decls.map fun d => (⟨d.1, d.2⟩ : queryVariable) } := by
  induction decls generalizing q with
  | nil => simp [defineAll]
  | cons d rest ih =>
    have h : defineAll q (d :: rest) = defineAll (q.DefineVariable d.1 d.2) rest := rfl
    rw [h, ih]
    simp [Query.DefineVariable]

theorem length_pos_of_ne_empty (s : String) (h : s ≠ "") : 0 < s.length := by
  obtain ⟨l⟩ := s
  cases l with
  | nil => exact absurd rfl h
  | cons c l => simp

theorem openLine_of_pos (label : String) (h : 0 < label.length) :
    openLine label = label ++ " \x7b\n" := by
  simp [openLine, h]

theorem signature_empty_name (object : Ty) (vars : List queryVariable) :
    Query.signature ⟨"", object, vars⟩ = "" := by
  simp [Query.signature]

theorem signature_named (N : String) (object : Ty) (vars : List queryVariable)
    (hN : N ≠ "") :
    Query.signature ⟨N, object, vars⟩
      = if vars = [] then "query " ++ N
        else "query " ++ N ++ "(" ++ stringsJoin (vars.map queryVariable.String) ", " ++ ")" := by
  have hlen : ¬ N.length = 0 := by
    have := length_pos_of_ne_empty N hN
    omega
  cases vars with
  | nil => simp [Query.signature, hlen]
  | cons v vs => simp [Query.signature, hlen]

/-! ## The claims -/

/-- C1. An anonymous query whose root has the single field `F`, a nested struct
annotated `A` whose members are all scalar leaves, compiles to the opening line of
the root, the line `f(A)` opening the scope of `F` at one indent, one line per member
at two indents (derived name, then the annotation in parentheses if there is one),
in declaration order, and the two closing lines. -/
theorem marshalString_single_nested_field (table : Char → Char) (rootName : String)
    (rootMarshal : Option Marshaler) (vars : List queryVariable)
    (F A tyName : String) (members : List StructField)
    (hty : tyName ≠ ConnectionName)
    (hleaf : ∀ m ∈ members, m.Typ.Kind = Kind.Other) :
    Query.MarshalString table
        ⟨"", .Struct rootName [.mk F (some A) (.Struct tyName members none)] rootMarshal, vars⟩
      = .ok ("\x7b\n  " ++ getName table (.mk F (some A) (.Struct tyName members none))
              ++ "(" ++ A ++ ") \x7b\n"
              ++ String.join (members.map fun m =>
                  "    " ++ getName table m ++ annotation m ++ "\n")
              ++ "  \x7d\n\x7d\n") := by
  have hlabel : (getNameAndArguments table
      (.mk F (some A) (.Struct tyName members none))).length > 0 := by
    simp only [getNameAndArguments, StructField.Tag, String.length_append]
    have : ")".length = 1 := rfl
    omega
  simp only [Query.MarshalString, Query.Marshal, Ty.Kind, Ty.NumField, Ty.Fields,
    Query.signature]
  simp only [Scope_eq, queryStruct_cons, queryStruct_nil, StructField.Typ,
    query_plain _ _ _ _ _ hty, queryStruct_leaves table members _ hleaf, openLine, hlabel,
    leafLines_eq_join]
  simp [Writer.new, Writer.Bytes, indentation, getNameAndArguments, StructField.Tag,
    String.append_assoc]
  rw [← String.append_assoc]
  rfl

/-- C1, on the shape of `TestArguments`. -/
theorem marshalString_single_nested_field_witness :
    Query.MarshalString sampleTable (NewQuery "" testArguments)
      = .ok "\x7b\n  human(id: \"1000\") \x7b\n    name\n    height(unit: FOOT)\n  \x7d\n\x7d\n" :=
  (marshalString_single_nested_field sampleTable "" none [] "Human" "id: \"1000\"" ""
    [ .mk "Name" none Ty.basic, .mk "Height" (some "unit: FOOT") Ty.basic ]
    (by decide) (by decide)).trans (by rfl)

/-- C2. An anonymous query on a root of one or more fields that are all scalar leaves
compiles to the opening line, then one line per field in declaration order, then the
closing line; the line of a field is its derived name at one indent, followed by the
annotation in parentheses exactly when the field declares one, and every line, the
last one included, ends with a newline. -/
theorem marshal_scalar_leaves (table : Char → Char) (rootName : String)
    (rootMarshal : Option Marshaler) (vars : List queryVariable)
    (fields : List StructField)
    (hn : 1 ≤ fields.length)
    (hleaf : ∀ f ∈ fields, f.Typ.Kind = Kind.Other) :
    Query.Marshal table ⟨"", .Struct rootName fields rootMarshal, vars⟩
      = .ok ("\x7b\n"
              ++ String.join (fields.map fun f =>
                  "  " ++ getName table f
                    ++ (match f.Tag with
                        | some a => "(" ++ a ++ ")"
                        | none => "")
                    ++ "\n")
              ++ "\x7d\n") := by
  have hne : ¬ fields.length = 0 := by omega
  simp only [Query.Marshal, Ty.Kind, Ty.NumField, Ty.Fields, Query.signature, hne]
  simp only [Scope_eq, queryStruct_leaves table fields _ hleaf, openLine, leafLines_eq_join]
  simp [Writer.new, Writer.Bytes, indentation, annotation, String.append_assoc]

/-- C2, on a root of three leaves of which the second is annotated. -/
theorem marshal_scalar_leaves_witness :
    Query.Marshal sampleTable (NewQuery "" threeLeaves)
      = .ok "\x7b\n  name\n  height(unit: FOOT)\n  homeUrl\n\x7d\n" :=
  (marshal_scalar_leaves sampleTable "" none []
    [ .mk "Name" none Ty.basic,
      .mk "Height" (some "unit: FOOT") Ty.basic,
      .mk "HomeURL" none Ty.basic ]
    (by decide) (by decide)).trans (by rfl)

/-- C3, as amended. For a query named `N`, not empty, and the variables declared by
`DefineVariable` in order: with no variable declared the signature is `query N`,
with no parentheses; with one or more it is `query N(` followed by the `$n: t` of
the variables in declaration order joined by a comma and a space, then `)`. On a
valid root, when the renderers the walker invokes only append to the buffer, the
compiled text starts with the signature followed by a space and the opening brace
on the first line. -/
theorem signature_named_query (table : Char → Char) (N : String) (object : Ty)
    (decls : List (String × String)) (hN : N ≠ "") :
    (defineAll (NewQuery N object) decls).signature
        = (if decls = [] then "query " ++ N
           else "query " ++ N ++ "("
                  ++ ", ".intercalate (decls.map fun d => "$" ++ d.1 ++ ": " ++ d.2) ++ ")")
      ∧ (object.Kind = Kind.Struct → object.NumField ≠ 0 → fieldsAppendOnly object.Fields →
          ∃ rest : String, (defineAll (NewQuery N object) decls).Marshal table
            = .ok ((defineAll (NewQuery N object) decls).signature ++ " \x7b\n" ++ rest)) := by
  have hsig : (defineAll (NewQuery N object) decls).signature
        = (if decls = [] then "query " ++ N
           else "query " ++ N ++ "("
                  ++ ", ".intercalate (decls.map fun d => "$" ++ d.1 ++ ": " ++ d.2) ++ ")") := by
    rw [defineAll_eq]
    simp only [NewQuery, List.nil_append]
    rw [signature_named N object _ hN, stringsJoin_eq_intercalate]
    cases decls with
    | nil => simp
    | cons d rest =>
      simp only [List.map_cons, List.map_map, reduceCtorEq, if_false]
      rfl
  refine ⟨hsig, ?_⟩
  intro hk hn ha
  have hobj : (defineAll (NewQuery N object) decls).object = object := by
    rw [defineAll_eq]
    rfl
  obtain ⟨rest, hrest⟩ := Marshal_first_line table (defineAll (NewQuery N object) decls)
    (by rw [hobj]; exact hk) (by rw [hobj]; exact hn) (by rw [hobj]; exact ha)
  refine ⟨rest, ?_⟩
  rw [hrest, openLine_of_pos]
  rw [hsig]
  have := length_pos_of_ne_empty N hN
  split <;> simp only [String.length_append] <;> omega

/-- C3, as amended, on `TestVariables`: the signature and the first line of the text. -/
theorem signature_named_query_witness :
    (defineAll (NewQuery "HeroNameAndFriends" testVariables) [("episode", "Episode")]).signature
        = "query HeroNameAndFriends($episode: Episode)"
      ∧ ∃ rest : String,
          (defineAll (NewQuery "HeroNameAndFriends" testVariables)
              [("episode", "Episode")]).Marshal sampleTable
            = .ok ("query HeroNameAndFriends($episode: Episode)" ++ " \x7b\n" ++ rest) :=
  ⟨(signature_named_query sampleTable "HeroNameAndFriends" testVariables
      [("episode", "Episode")] (by decide)).1.trans (by decide),
   (signature_named_query sampleTable "HeroNameAndFriends" testVariables
      [("episode", "Episode")] (by decide)).2 (by rfl) (by decide)
      (by simp [testVariables, Ty.Fields, fieldsAppendOnly, Ty.AppendOnly, ConnectionName])⟩

/-- C3 as first stated fails. With no variable declared the signature of a named
query is `query N`, not `query N()`; and a renderer may reset the buffer, after which
the compiled text does not start with the signature line. -/
theorem signature_named_query_counterexample :
    (defineAll (NewQuery "HeroNameAndFriends" testVariables) []).signature
        = "query HeroNameAndFriends"
      ∧ (defineAll (NewQuery "HeroNameAndFriends" testVariables) []).signature
        ≠ "query " ++ "HeroNameAndFriends" ++ "("
            ++ ", ".intercalate
                (([] : List (String × String)).map fun d => "$" ++ d.1 ++ ": " ++ d.2)
            ++ ")"
      ∧ (defineAll (NewQuery "HeroNameAndFriends" resettingShape)
            [("episode", "Episode")]).Marshal sampleTable
          = .ok "  hero\n\x7d\n"
      ∧ ¬ ∃ rest : String,
          (defineAll (NewQuery "HeroNameAndFriends" resettingShape)
              [("episode", "Episode")]).Marshal sampleTable
            = .ok ("query HeroNameAndFriends($episode: Episode) \x7b\n" ++ rest) := by
  have h : (defineAll (NewQuery "HeroNameAndFriends" resettingShape)
      [("episode", "Episode")]).Marshal sampleTable = .ok "  hero\n\x7d\n" := by rfl
  refine ⟨by decide, by decide, h, ?_⟩
  rintro ⟨rest, hrest⟩
  rw [h] at hrest
  have hd := congrArg String.data (Except.ok.inj hrest)
  simp at hd

/-- C4, as amended. For a query with the empty name, whatever variables it holds: the
signature is empty, the result of `Marshal` is the one obtained with no variable
declared, and on a valid root, when the renderers the walker invokes only append to
the buffer, the first line of the compiled text is the opening brace alone. -/
theorem anonymous_query_no_signature (table : Char → Char) (object : Ty)
    (vars : List queryVariable) :
    Query.signature ⟨"", object, vars⟩ = ""
      ∧ Query.Marshal table ⟨"", object, vars⟩ = Query.Marshal table ⟨"", object, []⟩
      ∧ (object.Kind = Kind.Struct → object.NumField ≠ 0 → fieldsAppendOnly object.Fields →
          ∃ rest : String,
            Query.Marshal table ⟨"", object, vars⟩ = .ok ("\x7b\n" ++ rest)) := by
  refine ⟨signature_empty_name object vars, ?_, ?_⟩
  · simp only [Query.Marshal, signature_empty_name]
  · intro hk hn ha
    obtain ⟨rest, hrest⟩ := Marshal_first_line table ⟨"", object, vars⟩ hk hn ha
    exact ⟨rest, by rw [hrest, signature_empty_name]; rfl⟩

/-- C4, as amended, on the shape of `TestVariables` with a variable declared. -/
theorem anonymous_query_no_signature_witness :
    ∃ rest : String,
      Query.Marshal sampleTable ⟨"", testVariables, [⟨"episode", "Episode"⟩]⟩
        = .ok ("\x7b\n" ++ rest) :=
  (anonymous_query_no_signature sampleTable testVariables [⟨"episode", "Episode"⟩]).2.2
    (by rfl) (by decide)
    (by simp [testVariables, Ty.Fields, fieldsAppendOnly, Ty.AppendOnly, ConnectionName])

/-- C4 as first stated fails. A renderer may reset the buffer: the compiled text of
this anonymous query starts with the line of the field, not with the opening brace. -/
theorem anonymous_query_no_signature_counterexample :
    Query.Marshal sampleTable (NewQuery "" resettingShape) = .ok "  hero\n\x7d\n"
      ∧ ¬ ∃ rest : String,
          Query.Marshal sampleTable (NewQuery "" resettingShape) = .ok ("\x7b\n" ++ rest) := by
  have h : Query.Marshal sampleTable (NewQuery "" resettingShape) = .ok "  hero\n\x7d\n" := by
    rfl
  refine ⟨h, ?_⟩
  rintro ⟨rest, hrest⟩
  rw [h] at hrest
  have hd := congrArg String.data (Except.ok.inj hrest)
  simp at hd

theorem Marshal_returns_iff (table : Char → Char) (q : Query) :
    (q.Marshal table = .error "query object must be a non-empty struct"
        ↔ (q.object.Kind ≠ Kind.Struct ∨ q.object.NumField = 0))
      ∧ ((∃ text : String, q.Marshal table = .ok text)
        ↔ (q.object.Kind = Kind.Struct ∧ 1 ≤ q.object.NumField))
      ∧ (∀ e : String, q.Marshal table = .error e
          → e = "query object must be a non-empty struct") := by
  by_cases h : q.object.Kind ≠ Kind.Struct ∨ q.object.NumField = 0
  · have hm : q.Marshal table = .error "query object must be a non-empty struct" := by
      simp only [Query.Marshal, h, if_true]
    refine ⟨⟨fun _ => h, fun _ => hm⟩, ⟨?_, ?_⟩, ?_⟩
    · rintro ⟨text, ht⟩
      rw [hm] at ht
      cases ht
    · rintro ⟨hk, hn⟩
      rcases h with h | h
      · exact absurd hk h
      · omega
    · intro e he
      rw [hm] at he
      exact (Except.error.inj he).symm
  · have hm : q.Marshal table
        = .ok (Writer.new.Scope q.signature
            (fun v => queryStruct table v q.object.Fields)).Bytes := by
      simp only [Query.Marshal, h, if_false]
    have hk : q.object.Kind = Kind.Struct := by
      by_contra hk
      exact h (Or.inl hk)
    have hn : 1 ≤ q.object.NumField := by
      by_contra hn
      exact h (Or.inr (by omega))
    refine ⟨⟨?_, fun h2 => absurd h2 h⟩, ⟨fun _ => ⟨hk, hn⟩, fun _ => ⟨_, hm⟩⟩, ?_⟩
    · intro he
      rw [hm] at he
      cases he
    · intro e he
      rw [hm] at he
      cases he

theorem query_Connection_lines (table : Char → Char) (w : Writer) (name : String) :
    query table w name Connection = w.WriteString (connectionLines w.level) := by
  have hp : ("pageInfo" : String).length > 0 := by decide
  have e1 : ∀ ty, getNameAndArguments table (.mk "TotalCount" none ty) = "totalCount" :=
    fun _ => rfl
  have e2 : ∀ ty, getNameAndArguments table (.mk "PageInfo" none ty) = "pageInfo" :=
    fun _ => rfl
  have e3 : ∀ ty, getNameAndArguments table (.mk "HasNextPage" none ty) = "hasNextPage" :=
    fun _ => rfl
  have e4 : ∀ ty, getNameAndArguments table (.mk "HasPreviousPage" none ty)
      = "hasPreviousPage" := fun _ => rfl
  have e5 : ∀ ty, getNameAndArguments table (.mk "StartCursor" none ty) = "startCursor" :=
    fun _ => rfl
  have e6 : ∀ ty, getNameAndArguments table (.mk "EndCursor" none ty) = "endCursor" :=
    fun _ => rfl
  have hpi : ("graphql.PageInfo" : String) ≠ ConnectionName := by decide
  have hopen : ∀ rest : String,
      "pageInfo" ++ (" \x7b\n" ++ rest) = "pageInfo \x7b" ++ ("\n" ++ rest) := by
    intro rest
    rw [← String.append_assoc, ← String.append_assoc]
    rfl
  have hclose : ("\x7d" : String) ++ "\n" = "\x7d\n" := rfl
  unfold Connection
  rw [query_Connection]
  simp only [queryStruct_cons, queryStruct_nil, StructField.Typ, e1, e2, PageInfo, Ty.basic,
    query_Other, query_plain _ _ _ _ _ hpi, Scope_eq, Println_eq, e3, e4, e5, e6, openLine, hp,
    if_true, fmtSprintln, stringsJoin, connectionLines, textLine, Writer.WriteString,
    String.append_assoc, add_sub_cancel_right, hopen, hclose]

/-- C6. In a nested struct `S` (not itself `Connection`, with no renderer) that has a
member whose type is `Connection`, whatever the members before and after it: `query`
opens the scope of `S`, compiles the members before, writes at that same level the
members of `Connection` (the leaf `totalCount`, then the scope `pageInfo` with its four
leaves), compiles the members after, and closes the scope. Neither the name nor the
tag of the `Connection` member appears, and no scope is opened for it. -/
theorem connection_members_flat (table : Char → Char) (w : Writer) (name tyName : String)
    (before after : List StructField) (cName : String) (cTag : Option String)
    (hty : tyName ≠ ConnectionName) :
    query table w name (.Struct tyName (before ++ .mk cName cTag Connection :: after) none)
      = w.Scope name (fun v =>
          queryStruct table
            ((queryStruct table v before).WriteString
              (connectionLines (queryStruct table v before).level))
            after) := by
  rw [query_plain _ _ _ _ _ hty]
  congr 1
  funext v
  rw [queryStruct_append, queryStruct_cons]
  simp only [StructField.Typ, query_Connection_lines]

/-- C6, on `TestConnection`: the field `friendsConnection` at two indents, and the whole
compiled text. -/
theorem connection_members_flat_witness :
    query sampleTable ⟨"", 2⟩ "friendsConnection" testFriendsConnection
        = ⟨"    friendsConnection \x7b\n      edges \x7b\n        node \x7b\n          name\n        \x7d\n        cursor\n      \x7d\n      totalCount\n      pageInfo \x7b\n        hasNextPage\n        hasPreviousPage\n        startCursor\n        endCursor\n      \x7d\n    \x7d\n", 2⟩
      ∧ Query.MarshalString sampleTable (NewQuery "" testConnection)
        = .ok "\x7b\n  hero \x7b\n    name\n    friendsConnection(first:2 after:\"Y3Vyc29yMQ==\") \x7b\n      edges \x7b\n        node \x7b\n          name\n        \x7d\n        cursor\n      \x7d\n      totalCount\n      pageInfo \x7b\n        hasNextPage\n        hasPreviousPage\n        startCursor\n        endCursor\n      \x7d\n    \x7d\n  \x7d\n\x7d\n" :=
  ⟨(connection_members_flat sampleTable ⟨"", 2⟩ "friendsConnection" ""
      [ .mk "Edges" none testEdges ] [] "Connection" none (by decide)).trans (by rfl),
   by rfl⟩

/-- C8, as amended. The capability is looked for on struct types only. For a struct
type other than `Connection` that has a renderer, `query` calls the renderer with the
name of the field and does nothing else: the writer it returns is the one the renderer
left. For a list type the renderer is not looked for and the type is unwrapped to its
element type; for a type of another kind the renderer is not looked for and the field
is written as a leaf line. -/
theorem renderer_checked_on_structs (table : Char → Char) (w : Writer) (name tyName : String)
    (fields : List StructField) (elem : Ty) (m : Marshaler)
    (hty : tyName ≠ ConnectionName) :
    query table w name (.Struct tyName fields (some m)) = (m w name).1
      ∧ query table w name (.Slice elem (some m)) = query table w name elem
      ∧ query table w name (.Other (some m)) = w.Println [name] :=
  ⟨query_rendered table w name tyName fields m hty, query_Slice table w name elem (some m),
    query_Other table w name (some m)⟩

/-- C8, as amended, on a struct, a list of strings and a scalar with the renderer
`scopeRenderer`. -/
theorem renderer_checked_on_structs_witness :
    query sampleTable Writer.new "tags"
        (.Struct "main.Tags" [ .mk "Name" none Ty.basic ] (some scopeRenderer))
        = ⟨"tags \x7b\n  label\n\x7d\n", 0⟩
      ∧ query sampleTable Writer.new "tags" (.Slice Ty.basic (some scopeRenderer))
        = ⟨"tags\n", 0⟩
      ∧ query sampleTable Writer.new "tags" (.Other (some scopeRenderer)) = ⟨"tags\n", 0⟩ :=
  ⟨(renderer_checked_on_structs sampleTable Writer.new "tags" "main.Tags"
      [ .mk "Name" none Ty.basic ] Ty.basic scopeRenderer (by decide)).1.trans (by decide),
   (renderer_checked_on_structs sampleTable Writer.new "tags" "main.Tags"
      [ .mk "Name" none Ty.basic ] Ty.basic scopeRenderer (by decide)).2.1.trans (by decide),
   (renderer_checked_on_structs sampleTable Writer.new "tags" "main.Tags"
      [ .mk "Name" none Ty.basic ] Ty.basic scopeRenderer (by decide)).2.2.trans (by decide)⟩

/-- C8 as first stated fails. A list type and a scalar type with the renderer
`scopeRenderer`, neither of them `Connection`: `query` does not call the renderer, it
unwraps the list and writes a leaf line. -/
theorem renderer_checked_on_structs_counterexample :
    query sampleTable Writer.new "tags" (.Slice Ty.basic (some scopeRenderer))
        ≠ (scopeRenderer Writer.new "tags").1
      ∧ query sampleTable Writer.new "tags" (.Other (some scopeRenderer))
        ≠ (scopeRenderer Writer.new "tags").1 := by
  refine ⟨by decide, by decide⟩

/-- C9, as amended. Let `f` be a field of a struct type, not `Connection`, with the
renderer `m`, placed anywhere in a shape. `Marshal` returns a text and no error. At the
field `query` writes nothing of its own: when the renderer returns an error, the
compilation goes on with the fields that follow from the writer as the renderer left
it, so what the renderer wrote before it failed stays in the text. When the renderer
always fails and leaves the writer as it found it, the result of `Marshal` is the one
for the shape without the field (if the root still has a field). -/
theorem failing_renderer_dropped (table : Char → Char) (f : StructField)
    (tyName : String) (members : List StructField) (m : Marshaler)
    (hf : f.Typ = .Struct tyName members (some m)) (hty : tyName ≠ ConnectionName) :
    (∀ (pos : Position) (queryName rootName : String) (rootMarshal : Option Marshaler)
        (vars : List queryVariable),
        ∃ text : String,
          Query.Marshal table ⟨queryName, .Struct rootName (pos.fill [f]) rootMarshal, vars⟩
            = .ok text)
      ∧ (∀ (w w1 : Writer) (err : String) (rest : List StructField),
          m w (getNameAndArguments table f) = (w1, some err) →
            queryStruct table w (f :: rest) = queryStruct table w1 rest)
      ∧ ((∀ (w : Writer) (name : String), ∃ err : String, m w name = (w, some err)) →
          ∀ (pos : Position) (queryName rootName : String) (rootMarshal : Option Marshaler)
            (vars : List queryVariable), pos.fill [] ≠ [] →
            Query.Marshal table ⟨queryName, .Struct rootName (pos.fill [f]) rootMarshal, vars⟩
              = Query.Marshal table
                  ⟨queryName, .Struct rootName (pos.fill []) rootMarshal, vars⟩) := by
  refine ⟨?_, ?_, ?_⟩
  · intro pos queryName rootName rootMarshal vars
    have hne : ¬ (pos.fill [f]).length = 0 := by
      simpa using fill_ne_nil pos f
    refine ⟨(Writer.new.Scope
      (Query.signature ⟨queryName, .Struct rootName (pos.fill [f]) rootMarshal, vars⟩)
      (fun v => queryStruct table v (pos.fill [f]))).Bytes, ?_⟩
    simp [Query.Marshal, Ty.Kind, Ty.NumField, Ty.Fields, hne]
  · intro w w1 err rest hm
    rw [queryStruct_cons, hf, query_rendered _ _ _ _ _ _ hty, hm]
  · intro hquiet pos queryName rootName rootMarshal vars hne
    have hone : ∀ v : Writer, queryStruct table v [f] = queryStruct table v [] := by
      intro v
      obtain ⟨err, herr⟩ := hquiet v (getNameAndArguments table f)
      rw [queryStruct_cons, hf, query_rendered _ _ _ _ _ _ hty, herr]
    have hall := fill_congr table [f] [] hone pos
    have h1 : ¬ (pos.fill [f]).length = 0 := by
      simpa using fill_ne_nil pos f
    have h2 : ¬ (pos.fill []).length = 0 := by
      simpa using hne
    simp only [Query.Marshal, Ty.Kind, Ty.NumField, Ty.Fields, h1, h2, Query.signature, hall]

/-- C9, as amended, on shapes whose field `Secret` has a failing renderer: below the
field `Hero`, with the renderer that fails at once, the text is the one of the shape
without `Secret`; with the renderer that fails after writing, the field that follows is
compiled after the line the renderer wrote, and `Marshal` returns a text. -/
theorem failing_renderer_dropped_witness :
    Query.Marshal sampleTable (NewQuery "" (renderedBelow failAtOnce))
        = .ok "\x7b\n  hero \x7b\n    name\n    height\n  \x7d\n\x7d\n"
      ∧ queryStruct sampleTable ⟨"", 1⟩
          [ secretField failAfterWriting, .mk "Height" none Ty.basic ]
        = ⟨"  secret \x7b\n  height\n", 1⟩
      ∧ ∃ text : String,
          Query.Marshal sampleTable (NewQuery "" (renderedSecond failAfterWriting))
            = .ok text :=
  ⟨((failing_renderer_dropped sampleTable (secretField failAtOnce) "main.Secret"
        [ .mk "Key" none Ty.basic ] failAtOnce rfl (by decide)).2.2
      (fun _ _ => ⟨"no selection", rfl⟩)
      (.inside [] "Hero" none [] "" none
        (.here [ .mk "Name" none Ty.basic ] [ .mk "Height" none Ty.basic ]) [])
      "" "" none [] (by simp [Position.fill])).trans (by rfl),
   ((failing_renderer_dropped sampleTable (secretField failAfterWriting) "main.Secret"
        [ .mk "Key" none Ty.basic ] failAfterWriting rfl (by decide)).2.1
      ⟨"", 1⟩ ⟨"  secret \x7b\n", 1⟩ "no selection" [ .mk "Height" none Ty.basic ]
      (by decide)).trans (by decide),
   (failing_renderer_dropped sampleTable (secretField failAfterWriting) "main.Secret"
        [ .mk "Key" none Ty.basic ] failAfterWriting rfl (by decide)).1
      (.here [ .mk "Name" none Ty.basic ] [ .mk "Height" none Ty.basic ]) "" "" none []⟩

/-- C9 as first stated fails. The renderer of the second field writes a line and then
returns an error: that line is in the compiled text, which is not the text of the shape
without the field. -/
theorem failing_renderer_dropped_counterexample :
    (∀ (w : Writer) (name : String), (failAfterWriting w name).2 = some "no selection")
      ∧ Query.Marshal sampleTable (NewQuery "" (renderedSecond failAfterWriting))
        = .ok "\x7b\n  name\n  secret \x7b\n  height\n\x7d\n"
      ∧ Query.Marshal sampleTable (NewQuery "" withoutSecond)
        = .ok "\x7b\n  name\n  height\n\x7d\n"
      ∧ Query.Marshal sampleTable (NewQuery "" (renderedSecond failAfterWriting))
        ≠ Query.Marshal sampleTable (NewQuery "" withoutSecond) := by
  have h1 : Query.Marshal sampleTable (NewQuery "" (renderedSecond failAfterWriting))
      = .ok "\x7b\n  name\n  secret \x7b\n  height\n\x7d\n" := by rfl
  have h2 : Query.Marshal sampleTable (NewQuery "" withoutSecond)
      = .ok "\x7b\n  name\n  height\n\x7d\n" := by rfl
  refine ⟨fun _ _ => rfl, h1, h2, ?_⟩
  rw [h1, h2]
  intro h
  have hd := congrArg String.data (Except.ok.inj h)
  simp at hd

/-- C10. A field of a list type compiles exactly as a field of the element type under
the same name, from every writer state: `query` on `[]T` is `query` on `T`, and so is
`query` on `T` under any number of list types, whether or not a list type has a
renderer. Nothing is written for the list itself. -/
theorem list_same_as_element (table : Char → Char) (w : Writer) (name : String) (T : Ty)
    (m : Option Marshaler) (slices : List (Option Marshaler)) :
    query table w name (.Slice T m) = query table w name T
      ∧ query table w name (wrapSlices slices T) = query table w name T :=
  ⟨query_Slice table w name T m, query_wrapSlices table w name T slices⟩

/-- C10, on the field `Friends` of `TestVariables`, at two indents. -/
theorem list_same_as_element_witness :
    query sampleTable ⟨"", 2⟩ "friends"
        (.Slice (.Struct "" [ .mk "Name" none Ty.basic ] none) none)
      = ⟨"    friends \x7b\n      name\n    \x7d\n", 2⟩ :=
  (list_same_as_element sampleTable ⟨"", 2⟩ "friends"
    (.Struct "" [ .mk "Name" none Ty.basic ] none) none []).1.trans (by decide)

/-! ## Replacement of every occurrence -/

theorem replaceLoop_nil (old new : List Char) (fuel : Nat) :
    replaceLoop old new fuel [] = [] := by
  cases fuel <;> rfl

theorem replaceLoop_cons_match (old new : List Char) (fuel : Nat) (c : Char)
    (cs : List Char) (h : old <+: c :: cs) :
    replaceLoop old new (fuel + 1) (c :: cs)
      = new ++ replaceLoop old new fuel ((c :: cs).drop old.length) := by
  have hb : old.isPrefixOf (c :: cs) = true := List.isPrefixOf_iff_prefix.mpr h
  simp only [replaceLoop, hb, if_true]

theorem replaceLoop_cons_no_match (old new : List Char) (fuel : Nat) (c : Char)
    (cs : List Char) (h : ¬ old <+: c :: cs) :
    replaceLoop old new (fuel + 1) (c :: cs) = c :: replaceLoop old new fuel cs := by
  have hb : ¬ old.isPrefixOf (c :: cs) = true := fun hb => h (List.isPrefixOf_iff_prefix.mp hb)
  simp only [replaceLoop, hb, if_false]
  rfl

theorem replaceLoop_of_no_occurrence (old new : List Char) (fuel : Nat) (s : List Char)
    (h : ¬ old <:+: s) : replaceLoop old new fuel s = s := by
  induction fuel generalizing s with
  | zero => rfl
  | succ fuel ih =>
    cases s with
    | nil => rfl
    | cons c cs =>
      have hp : ¬ old <+: c :: cs := fun hp => h hp.isInfix
      have hcs : ¬ old <:+: cs := fun hi => h (List.infix_cons hi)
      rw [replaceLoop_cons_no_match old new fuel c cs hp, ih cs hcs]

theorem EveryReplaced_cons (old new : List Char) (c : Char) (cs r : List Char)
    (hp : ¬ old <+: c :: cs) (h : EveryReplaced old new cs r) :
    EveryReplaced old new (c :: cs) (c :: r) := by
  cases h with
  | done hno =>
    refine EveryReplaced.done ?_
    intro hi
    rcases List.infix_cons_iff.mp hi with h1 | h1
    · exact hp h1
    · exact hno h1
  | @step p rest r1 hfirst hr =>
    have e1 : c :: (p ++ old ++ rest) = (c :: p) ++ old ++ rest := by simp
    have e2 : c :: (p ++ new ++ r1) = (c :: p) ++ new ++ r1 := by simp
    rw [e1, e2]
    refine EveryReplaced.step ?_ hr
    intro hi
    rw [List.cons_append] at hi
    rcases List.infix_cons_iff.mp hi with h1 | h1
    · refine hp (h1.trans ?_)
      have h3 : p ++ old.dropLast <+: p ++ old ++ rest := by
        rw [List.append_assoc]
        exact (List.prefix_append_right_inj p).mpr
          ((List.dropLast_prefix old).trans (List.prefix_append old rest))
      exact (List.cons_prefix_cons.mpr ⟨rfl, h3⟩)
    · exact hfirst h1

theorem replaceLoop_EveryReplaced (old new : List Char) (hold : old ≠ []) (fuel : Nat)
    (s : List Char) (hfuel : s.length ≤ fuel) :
    EveryReplaced old new s (replaceLoop old new fuel s) := by
  induction fuel generalizing s with
  | zero =>
    have hs : s = [] := List.length_eq_zero.mp (by omega)
    subst hs
    refine EveryReplaced.done ?_
    intro hi
    exact hold (List.eq_nil_of_infix_nil hi)
  | succ fuel ih =>
    cases s with
    | nil =>
      refine EveryReplaced.done ?_
      intro hi
      exact hold (List.eq_nil_of_infix_nil hi)
    | cons c cs =>
      by_cases hp : old <+: c :: cs
      · rw [replaceLoop_cons_match old new fuel c cs hp]
        obtain ⟨rest, hrest⟩ := hp
        have hdrop : (c :: cs).drop old.length = rest := by
          rw [← hrest, List.drop_left]
        rw [hdrop]
        have hlen : rest.length ≤ fuel := by
          have hl := congrArg List.length hrest
          have hpos : 0 < old.length := List.length_pos.mpr hold
          simp only [List.length_append, List.length_cons] at hl
          simp only [List.length_cons] at hfuel
          omega
        have hstep := @EveryReplaced.step old new [] rest (replaceLoop old new fuel rest)
          (by
            intro hi
            have h1 := hi.length_le
            have hpos : 0 < old.length := List.length_pos.mpr hold
            simp only [List.nil_append, List.length_dropLast] at h1
            omega)
          (ih rest hlen)
        simp only [List.nil_append] at hstep
        rw [← hrest]
        exact hstep
      · rw [replaceLoop_cons_no_match old new fuel c cs hp]
        exact EveryReplaced_cons old new c cs _ hp
          (ih cs (by simp only [List.length_cons] at hfuel; omega))

theorem replaceLoop_head (old new : List Char) (hold : old ≠ [])
    (hhead : new.head? = old.head?) (fuel : Nat) (s : List Char) :
    (replaceLoop old new fuel s).head? = s.head? := by
  cases fuel with
  | zero => rfl
  | succ fuel =>
    cases s with
    | nil => rfl
    | cons c cs =>
      by_cases hp : old <+: c :: cs
      · rw [replaceLoop_cons_match old new fuel c cs hp]
        cases old with
        | nil => exact absurd rfl hold
        | cons o os =>
          have hc : o = c := (List.cons_prefix_cons.mp hp).1
          cases new with
          | nil => simp at hhead
          | cons n ns =>
            simp only [List.head?_cons, Option.some.injEq] at hhead
            simp [hhead, hc]
      · rw [replaceLoop_cons_no_match old new fuel c cs hp]
        simp

theorem head_eq_of_head? (c : Char) (l : List Char) (h : l.head? = some c) :
    ∃ t, l = c :: t := by
  cases l with
  | nil => simp at h
  | cons a t =>
    simp only [List.head?_cons, Option.some.injEq] at h
    exact ⟨t, by rw [h]⟩

theorem replaceID_no_occurrence (fuel : Nat) (s : List Char) (hfuel : s.length ≤ fuel) :
    ¬ ['I', 'D'] <:+: replaceLoop ['I', 'D'] ['I', 'd'] fuel s := by
  induction fuel generalizing s with
  | zero =>
    have hs : s = [] := List.length_eq_zero.mp (by omega)
    subst hs
    intro hi
    have := List.eq_nil_of_infix_nil hi
    simp at this
  | succ fuel ih =>
    cases s with
    | nil =>
      intro hi
      have := List.eq_nil_of_infix_nil hi
      simp at this
    | cons c cs =>
      simp only [List.length_cons] at hfuel
      by_cases hp : ['I', 'D'] <+: c :: cs
      · rw [replaceLoop_cons_match _ _ fuel c cs hp]
        obtain ⟨rest, hrest⟩ := hp
        have hdrop : (c :: cs).drop ['I', 'D'].length = rest := by
          rw [← hrest, List.drop_left]
        rw [hdrop]
        have hlen : rest.length ≤ fuel := by
          have hl := congrArg List.length hrest
          simp only [List.length_append, List.length_cons, List.length_nil] at hl
          omega
        intro hi
        simp only [List.cons_append, List.nil_append] at hi
        rcases List.infix_cons_iff.mp hi with h1 | h1
        · have h2 := (List.cons_prefix_cons.mp (List.cons_prefix_cons.mp h1).2).1
          exact absurd h2 (by decide)
        · rcases List.infix_cons_iff.mp h1 with h2 | h2
          · exact absurd (List.cons_prefix_cons.mp h2).1 (by decide)
          · exact ih rest hlen h2
      · rw [replaceLoop_cons_no_match _ _ fuel c cs hp]
        intro hi
        rcases List.infix_cons_iff.mp hi with h1 | h1
        · obtain ⟨hc, h2⟩ := List.cons_prefix_cons.mp h1
          have hh : (replaceLoop ['I', 'D'] ['I', 'd'] fuel cs).head? = some 'D' := by
            obtain ⟨t, ht⟩ := h2
            rw [← ht]
            rfl
          rw [replaceLoop_head ['I', 'D'] ['I', 'd'] (by simp) rfl fuel cs] at hh
          obtain ⟨t, ht⟩ := head_eq_of_head? 'D' cs hh
          apply hp
          rw [ht, ← hc]
          exact ⟨t, rfl⟩
        · exact ih cs (by omega) h1

theorem head?_of_singleton_start (c : Char) (l : List Char) (h : [c] <+: l) :
    l.head? = some c := by
  obtain ⟨t, ht⟩ := h
  rw [← ht]
  rfl

theorem replaceURL_no_occurrence (fuel : Nat) (s : List Char) (hfuel : s.length ≤ fuel) :
    ¬ ['U', 'R', 'L'] <:+: replaceLoop ['U', 'R', 'L'] ['U', 'r', 'l'] fuel s := by
  induction fuel generalizing s with
  | zero =>
    have hs : s = [] := List.length_eq_zero.mp (by omega)
    subst hs
    intro hi
    have := List.eq_nil_of_infix_nil hi
    simp at this
  | succ fuel ih =>
    cases s with
    | nil =>
      intro hi
      have := List.eq_nil_of_infix_nil hi
      simp at this
    | cons c cs =>
      simp only [List.length_cons] at hfuel
      by_cases hp : ['U', 'R', 'L'] <+: c :: cs
      · rw [replaceLoop_cons_match _ _ fuel c cs hp]
        obtain ⟨rest, hrest⟩ := hp
        have hdrop : (c :: cs).drop ['U', 'R', 'L'].length = rest := by
          rw [← hrest, List.drop_left]
        rw [hdrop]
        have hlen : rest.length ≤ fuel := by
          have hl := congrArg List.length hrest
          simp only [List.length_append, List.length_cons, List.length_nil] at hl
          omega
        intro hi
        simp only [List.cons_append, List.nil_append] at hi
        rcases List.infix_cons_iff.mp hi with h1 | h1
        · have h2 := (List.cons_prefix_cons.mp (List.cons_prefix_cons.mp h1).2).1
          exact absurd h2 (by decide)
        · rcases List.infix_cons_iff.mp h1 with h2 | h2
          · exact absurd (List.cons_prefix_cons.mp h2).1 (by decide)
          · rcases List.infix_cons_iff.mp h2 with h3 | h3
            · exact absurd (List.cons_prefix_cons.mp h3).1 (by decide)
            · exact ih rest hlen h3
      · rw [replaceLoop_cons_no_match _ _ fuel c cs hp]
        intro hi
        rcases List.infix_cons_iff.mp hi with h1 | h1
        · obtain ⟨hc, h2⟩ := List.cons_prefix_cons.mp h1
          have hh : (replaceLoop ['U', 'R', 'L'] ['U', 'r', 'l'] fuel cs).head? = some 'R' := by
            obtain ⟨t, ht⟩ := h2
            rw [← ht]
            rfl
          rw [replaceLoop_head ['U', 'R', 'L'] ['U', 'r', 'l'] (by simp) rfl fuel cs] at hh
          obtain ⟨cs1, hcs1⟩ := head_eq_of_head? 'R' cs hh
          subst hcs1
          cases fuel with
          | zero => simp at hfuel
          | succ fuel1 =>
            have hnp : ¬ ['U', 'R', 'L'] <+: 'R' :: cs1 := by
              intro hq
              exact absurd (List.cons_prefix_cons.mp hq).1 (by decide)
            rw [replaceLoop_cons_no_match _ _ fuel1 'R' cs1 hnp] at h2
            have h3 := (List.cons_prefix_cons.mp h2).2
            have hh2 := head?_of_singleton_start 'L' _ h3
            rw [replaceLoop_head ['U', 'R', 'L'] ['U', 'r', 'l'] (by simp) rfl fuel1 cs1] at hh2
            obtain ⟨t, ht⟩ := head_eq_of_head? 'L' cs1 hh2
            apply hp
            rw [ht, ← hc]
            exact ⟨t, rfl⟩
        · exact ih cs (by omega) h1

theorem replaceURL_keeps_no_ID (fuel : Nat) (s : List Char) (h : ¬ ['I', 'D'] <:+: s) :
    ¬ ['I', 'D'] <:+: replaceLoop ['U', 'R', 'L'] ['U', 'r', 'l'] fuel s := by
  induction fuel generalizing s with
  | zero => exact h
  | succ fuel ih =>
    cases s with
    | nil => exact h
    | cons c cs =>
      have hcs : ¬ ['I', 'D'] <:+: cs := fun hi => h (List.infix_cons hi)
      by_cases hp : ['U', 'R', 'L'] <+: c :: cs
      · rw [replaceLoop_cons_match _ _ fuel c cs hp]
        obtain ⟨rest, hrest⟩ := hp
        have hdrop : (c :: cs).drop ['U', 'R', 'L'].length = rest := by
          rw [← hrest, List.drop_left]
        rw [hdrop]
        have hrestno : ¬ ['I', 'D'] <:+: rest := by
          intro hi
          apply h
          rw [← hrest]
          exact hi.trans (List.suffix_append _ _).isInfix
        intro hi
        simp only [List.cons_append, List.nil_append] at hi
        rcases List.infix_cons_iff.mp hi with h1 | h1
        · exact absurd (List.cons_prefix_cons.mp h1).1 (by decide)
        · rcases List.infix_cons_iff.mp h1 with h2 | h2
          · exact absurd (List.cons_prefix_cons.mp h2).1 (by decide)
          · rcases List.infix_cons_iff.mp h2 with h3 | h3
            · exact absurd (List.cons_prefix_cons.mp h3).1 (by decide)
            · exact ih rest hrestno h3
      · rw [replaceLoop_cons_no_match _ _ fuel c cs hp]
        intro hi
        rcases List.infix_cons_iff.mp hi with h1 | h1
        · obtain ⟨hc, h2⟩ := List.cons_prefix_cons.mp h1
          have hh := head?_of_singleton_start 'D' _ h2
          rw [replaceLoop_head ['U', 'R', 'L'] ['U', 'r', 'l'] (by simp) rfl fuel cs] at hh
          obtain ⟨t, ht⟩ := head_eq_of_head? 'D' cs hh
          apply h
          rw [ht, ← hc]
          exact (show ['I', 'D'] <+: 'I' :: 'D' :: t from ⟨t, rfl⟩).isInfix
        · exact ih cs hcs h1

/-! ## Derived names -/

theorem unicodeToLower_ascii_ne (table : Char → Char) (c : Char) (hc : c.toNat ≤ 127) :
    unicodeToLower table c ≠ 'I' ∧ unicodeToLower table c ≠ 'U' := by
  unfold unicodeToLower
  rw [if_pos hc]
  by_cases hu : 65 ≤ c.toNat ∧ c.toNat ≤ 90
  · rw [if_pos hu]
    obtain ⟨h1, h2⟩ := hu
    interval_cases c.toNat <;> exact ⟨by decide, by decide⟩
  · rw [if_neg hu]
    constructor
    · intro h
      apply hu
      rw [h]
      decide
    · intro h
      apply hu
      rw [h]
      decide

theorem unicodeToLower_ne (table : Char → Char)
    (htable : ∀ c : Char, 127 < c.toNat → table c ≠ 'I' ∧ table c ≠ 'U') (c : Char) :
    unicodeToLower table c ≠ 'I' ∧ unicodeToLower table c ≠ 'U' := by
  by_cases hc : c.toNat ≤ 127
  · exact unicodeToLower_ascii_ne table c hc
  · unfold unicodeToLower
    rw [if_neg hc]
    exact htable c (by omega)

theorem unicodeToLower_ascii_idem (table : Char → Char) (c : Char) (hc : c.toNat ≤ 127) :
    unicodeToLower table (unicodeToLower table c) = unicodeToLower table c := by
  by_cases hu : 65 ≤ c.toNat ∧ c.toNat ≤ 90
  · have h1 : unicodeToLower table c = Char.ofNat (c.toNat + 32) := by
      unfold unicodeToLower
      rw [if_pos hc, if_pos hu]
    rw [h1]
    obtain ⟨h2, h3⟩ := hu
    interval_cases c.toNat <;> rfl
  · have h1 : unicodeToLower table c = c := by
      unfold unicodeToLower
      rw [if_pos hc, if_neg hu]
    rw [h1, h1]

theorem unicodeToLower_idem (table : Char → Char)
    (htable : ∀ c : Char, 127 < c.toNat → unicodeToLower table (table c) = table c)
    (c : Char) :
    unicodeToLower table (unicodeToLower table c) = unicodeToLower table c := by
  by_cases hc : c.toNat ≤ 127
  · exact unicodeToLower_ascii_idem table c hc
  · have h1 : unicodeToLower table c = table c := by
      unfold unicodeToLower
      rw [if_neg hc]
    rw [h1]
    exact htable c (by omega)

theorem getName_data (table : Char → Char) (field : StructField) (c : Char)
    (cs : List Char) (hname : field.Name.data = c :: cs) :
    ∃ rest : List Char,
      replaceLoop ['U', 'R', 'L'] ['U', 'r', 'l']
          (replaceLoop ['I', 'D'] ['I', 'd'] (c :: cs).length (c :: cs)).length
          (replaceLoop ['I', 'D'] ['I', 'd'] (c :: cs).length (c :: cs)) = c :: rest
        ∧ (getName table field).data = unicodeToLower table c :: rest := by
  have hh : (replaceLoop ['U', 'R', 'L'] ['U', 'r', 'l']
          (replaceLoop ['I', 'D'] ['I', 'd'] (c :: cs).length (c :: cs)).length
          (replaceLoop ['I', 'D'] ['I', 'd'] (c :: cs).length (c :: cs))).head? = some c := by
    rw [replaceLoop_head ['U', 'R', 'L'] ['U', 'r', 'l'] (by simp) rfl,
      replaceLoop_head ['I', 'D'] ['I', 'd'] (by simp) rfl]
    rfl
  obtain ⟨rest, hrest⟩ := head_eq_of_head? c _ hh
  refine ⟨rest, hrest, ?_⟩
  have h2 : (stringsReplace (stringsReplace field.Name "ID" "Id") "URL" "Url").data
      = c :: rest := by
    simp only [stringsReplace, hname]
    exact hrest
  unfold getName
  simp only [h2]

theorem infix_lowered_head (pat : List Char) (p0 : Char) (ps : List Char)
    (hpat : pat = p0 :: ps) (c : Char) (rest : List Char) (hc : c ≠ p0)
    (h : ¬ pat <:+: rest) : ¬ pat <:+: c :: rest := by
  intro hi
  rcases List.infix_cons_iff.mp hi with h1 | h1
  · rw [hpat] at h1
    exact hc (List.cons_prefix_cons.mp h1).1.symm
  · exact h h1

theorem getName_no_occurrence (table : Char → Char) (field : StructField)
    (hlow : ∀ c : Char, unicodeToLower table c ≠ 'I' ∧ unicodeToLower table c ≠ 'U') :
    ¬ ['I', 'D'] <:+: (getName table field).data
      ∧ ¬ ['U', 'R', 'L'] <:+: (getName table field).data := by
  cases hname : field.Name.data with
  | nil =>
    have h2 : (stringsReplace (stringsReplace field.Name "ID" "Id") "URL" "Url").data = [] := by
      simp only [stringsReplace, hname]
      rfl
    have h3 : (getName table field).data = [] := by
      unfold getName
      simp only [h2]
    rw [h3]
    constructor <;> intro hi <;> have := List.eq_nil_of_infix_nil hi <;> simp at this
  | cons c cs =>
    obtain ⟨rest, hrest, hdata⟩ := getName_data table field c cs hname
    rw [hdata]
    have hID := replaceURL_keeps_no_ID
      (replaceLoop ['I', 'D'] ['I', 'd'] (c :: cs).length (c :: cs)).length _
      (replaceID_no_occurrence (c :: cs).length (c :: cs) (le_refl _))
    have hURL := replaceURL_no_occurrence
      (replaceLoop ['I', 'D'] ['I', 'd'] (c :: cs).length (c :: cs)).length _ (le_refl _)
    rw [hrest] at hID hURL
    constructor
    · exact infix_lowered_head _ 'I' ['D'] rfl _ rest (hlow c).1
        (fun hi => hID (List.infix_cons hi))
    · exact infix_lowered_head _ 'U' ['R', 'L'] rfl _ rest (hlow c).2
        (fun hi => hURL (List.infix_cons hi))

/-- C11. For a field with a non-empty declared identifier `s`: `getName` is `s` with
every occurrence of `ID` replaced by `Id` (giving `a`), then every occurrence of `URL`
replaced by `Url` (giving `c0 :: rest`), then the first character lower-cased and the
others kept. The first character of `s` is `c0`, so the result starts with the
lower-case of the first character of `s`. When the case tables never give the capitals
`I` and `U`, the result has no occurrence of `ID` and none of `URL`. -/
theorem getName_characterised (table : Char → Char) (field : StructField)
    (hne : field.Name ≠ "") :
    ∃ (a : List Char) (c0 : Char) (rest : List Char),
      EveryReplaced "ID".data "Id".data field.Name.data a
        ∧ EveryReplaced "URL".data "Url".data a (c0 :: rest)
        ∧ (getName table field).data = unicodeToLower table c0 :: rest
        ∧ field.Name.data.head? = some c0
        ∧ ((∀ c : Char, 127 < c.toNat → table c ≠ 'I' ∧ table c ≠ 'U') →
            ¬ "ID".data <:+: (getName table field).data
              ∧ ¬ "URL".data <:+: (getName table field).data) := by
  cases hname : field.Name.data with
  | nil =>
    exfalso
    apply hne
    exact String.ext hname
  | cons c cs =>
    obtain ⟨rest, hrest, hdata⟩ := getName_data table field c cs hname
    refine ⟨replaceLoop ['I', 'D'] ['I', 'd'] (c :: cs).length (c :: cs), c, rest,
      ?_, ?_, hdata, rfl, ?_⟩
    · exact replaceLoop_EveryReplaced ['I', 'D'] ['I', 'd'] (by simp) _ _ (le_refl _)
    · rw [← hrest]
      exact replaceLoop_EveryReplaced ['U', 'R', 'L'] ['U', 'r', 'l'] (by simp) _ _ (le_refl _)
    · intro htable
      exact getName_no_occurrence table field (unicodeToLower_ne table htable)

/-- C11, on the fields `HumanID` and `PhotoURL`. -/
theorem getName_characterised_witness :
    getName sampleTable (.mk "HumanID" none Ty.basic) = "humanId"
      ∧ getName sampleTable (.mk "PhotoURL" none Ty.basic) = "photoUrl"
      ∧ ∃ (a : List Char) (c0 : Char) (rest : List Char),
          EveryReplaced "ID".data "Id".data "HumanID".data a
            ∧ EveryReplaced "URL".data "Url".data a (c0 :: rest)
            ∧ "humanId".data = unicodeToLower sampleTable c0 :: rest
            ∧ "HumanID".data.head? = some c0
            ∧ ¬ "ID".data <:+: "humanId".data
            ∧ ¬ "URL".data <:+: "humanId".data := by
  refine ⟨by decide, by decide, ?_⟩
  obtain ⟨a, c0, rest, h1, h2, h3, h4, h5⟩ :=
    getName_characterised sampleTable (.mk "HumanID" none Ty.basic) (by decide)
  have h6 := h5 (fun c hc => by
    constructor <;> intro h <;> simp only [sampleTable] at h <;> rw [h] at hc
      <;> exact absurd hc (by decide))
  exact ⟨a, c0, rest, h1, h2, h3, h4, h6.1, h6.2⟩

/-- C12. Deriving the name twice gives what deriving it once gives: for a field with a
non-empty identifier, `getName` of a field named by the derived name is the derived
name again, provided lowering a character that the case tables give leaves it as it
is. -/
theorem getName_idempotent (table : Char → Char) (field : StructField)
    (tag : Option String) (ty : Ty) (hne : field.Name ≠ "")
    (htable : ∀ c : Char, 127 < c.toNat → unicodeToLower table (table c) = table c) :
    getName table (.mk (getName table field) tag ty) = getName table field := by
  have hidem := unicodeToLower_idem table htable
  have hlow : ∀ c : Char, unicodeToLower table c ≠ 'I' ∧ unicodeToLower table c ≠ 'U' := by
    intro c
    constructor
    · intro h
      have h2 := hidem c
      rw [h] at h2
      exact absurd h2 (by
        have : unicodeToLower table 'I' = 'i' := rfl
        rw [this]
        decide)
    · intro h
      have h2 := hidem c
      rw [h] at h2
      exact absurd h2 (by
        have : unicodeToLower table 'U' = 'u' := rfl
        rw [this]
        decide)
  cases hname : field.Name.data with
  | nil =>
    exfalso
    apply hne
    exact String.ext hname
  | cons c cs =>
    obtain ⟨rest, _, hdata⟩ := getName_data table field c cs hname
    obtain ⟨hnoID, hnoURL⟩ := getName_no_occurrence table field hlow
    have e1 : stringsReplace (getName table field) "ID" "Id" = getName table field := by
      apply String.ext
      simp only [stringsReplace]
      exact replaceLoop_of_no_occurrence _ _ _ _ hnoID
    have e2 : stringsReplace (getName table field) "URL" "Url" = getName table field := by
      apply String.ext
      simp only [stringsReplace]
      exact replaceLoop_of_no_occurrence _ _ _ _ hnoURL
    apply String.ext
    rw [hdata]
    have h3 : getName table (.mk (getName table field) tag ty)
        = (match (getName table field).data with
            | [] => ""
            | t0 :: rest => ⟨unicodeToLower table t0 :: rest⟩) := by
      show (match (stringsReplace (stringsReplace (getName table field) "ID" "Id")
              "URL" "Url").data with
            | [] => ""
            | t0 :: rest => (⟨unicodeToLower table t0 :: rest⟩ : String)) = _
      rw [e1, e2]
    rw [h3, hdata]
    simp only [hidem]

/-- C12, on the field `HumanID`. -/
theorem getName_idempotent_witness :
    getName sampleTable (.mk "humanId" none Ty.basic) = "humanId" :=
  (getName_idempotent sampleTable (.mk "HumanID" none Ty.basic) none Ty.basic (by decide)
    (fun c hc => by
      have h1 : unicodeToLower sampleTable (sampleTable c) = sampleTable c := by
        simp only [sampleTable, unicodeToLower]
        rw [if_neg (by omega)]
      exact h1))

/-! ## The ID codec -/

theorem base64Value_base64Char (v : Nat) (hv : v < 64) :
    base64Value (base64Char v) = some v := by
  interval_cases v <;> rfl

theorem base64Char_ne (v : Nat) :
    base64Char v ≠ 61 ∧ base64Char v ≠ 10 ∧ base64Char v ≠ 13 := by
  unfold base64Char
  split_ifs <;> omega

theorem decodeQuanta_base64Encode (x : List Nat) (hx : ∀ b ∈ x, b < 256) :
    decodeQuanta (base64Encode x) = some x := by
  induction x using base64Encode.induct with
  | case1 a b c rest ih =>
    have ha : a < 256 := hx a (by simp)
    have hb : b < 256 := hx b (by simp)
    have hc : c < 256 := hx c (by simp)
    have hrest : ∀ y ∈ rest, y < 256 := fun y hy => hx y (by simp [hy])
    have h0 := base64Value_base64Char (a / 4) (by omega)
    have h1 := base64Value_base64Char (a % 4 * 16 + b / 16) (by omega)
    have h2 := base64Value_base64Char (b % 16 * 4 + c / 64) (by omega)
    have h3 := base64Value_base64Char (c % 64) (by omega)
    have n2 := (base64Char_ne (b % 16 * 4 + c / 64)).1
    have n3 := (base64Char_ne (c % 64)).1
    simp only [base64Encode, decodeQuanta, h0, h1, h2, h3, n2, n3, if_false, ih hrest]
    congr 1
    congr 1
    · omega
    · congr 1
      · omega
      · congr 1
        omega
  | case2 a b =>
    have ha : a < 256 := hx a (by simp)
    have hb : b < 256 := hx b (by simp)
    have h0 := base64Value_base64Char (a / 4) (by omega)
    have h1 := base64Value_base64Char (a % 4 * 16 + b / 16) (by omega)
    have h2 := base64Value_base64Char (b % 16 * 4) (by omega)
    have n2 := (base64Char_ne (b % 16 * 4)).1
    simp only [base64Encode, decodeQuanta, h0, h1, h2, n2, if_false, if_true]
    congr 1
    congr 1
    · omega
    · congr 1
      omega
  | case3 a =>
    have ha : a < 256 := hx a (by simp)
    have h0 := base64Value_base64Char (a / 4) (by omega)
    have h1 := base64Value_base64Char (a % 4 * 16) (by omega)
    simp only [base64Encode, decodeQuanta, h0, h1, if_true, and_self]
    congr 1
    congr 1
    omega
  | case4 => rfl

theorem base64Encode_mem (x : List Nat) :
    ∀ c ∈ base64Encode x, c = 61 ∨ ∃ v, c = base64Char v := by
  induction x using base64Encode.induct with
  | case1 a b c rest ih =>
    intro y hy
    simp only [base64Encode, List.mem_cons] at hy
    rcases hy with h | h | h | h | h
    · exact Or.inr ⟨_, h⟩
    · exact Or.inr ⟨_, h⟩
    · exact Or.inr ⟨_, h⟩
    · exact Or.inr ⟨_, h⟩
    · exact ih y h
  | case2 a b =>
    intro y hy
    simp only [base64Encode, List.mem_cons, List.mem_singleton, List.not_mem_nil,
      or_false] at hy
    rcases hy with h | h | h | h
    · exact Or.inr ⟨_, h⟩
    · exact Or.inr ⟨_, h⟩
    · exact Or.inr ⟨_, h⟩
    · exact Or.inl h
  | case3 a =>
    intro y hy
    simp only [base64Encode, List.mem_cons, List.mem_singleton, List.not_mem_nil,
      or_false] at hy
    rcases hy with h | h | h | h
    · exact Or.inr ⟨_, h⟩
    · exact Or.inr ⟨_, h⟩
    · exact Or.inl h
    · exact Or.inl h
  | case4 =>
    intro y hy
    simp [base64Encode] at hy

theorem base64Decode_base64Encode (x : List Nat) (hx : ∀ b ∈ x, b < 256) :
    base64Decode (base64Encode x) = some x := by
  unfold base64Decode
  have hf : (base64Encode x).filter (fun c => c ≠ 10 ∧ c ≠ 13) = base64Encode x := by
    apply List.filter_eq_self.mpr
    intro c hc
    rcases base64Encode_mem x c hc with h | ⟨v, h⟩
    · subst h
      decide
    · subst h
      have := base64Char_ne v
      simp [this.2.1, this.2.2]
  rw [hf]
  exact decodeQuanta_base64Encode x hx

theorem stringsSplit_no_sep (sep : Nat) (s : List Nat) (h : sep ∉ s) :
    stringsSplit sep s = [s] := by
  induction s with
  | nil => rfl
  | cons c cs ih =>
    have hc : c ≠ sep := fun e => h (by simp [e])
    have hcs : sep ∉ cs := fun e => h (by simp [e])
    simp only [stringsSplit, hc, if_false, ih hcs]

theorem stringsSplit_two (sep : Nat) (s t : List Nat) (hs : sep ∉ s) (ht : sep ∉ t) :
    stringsSplit sep (s ++ sep :: t) = [s, t] := by
  induction s with
  | nil => simp [stringsSplit, stringsSplit_no_sep sep t ht]
  | cons c cs ih =>
    have hc : c ≠ sep := fun e => hs (by simp [e])
    have hcs : sep ∉ cs := fun e => hs (by simp [e])
    have e : (c :: cs) ++ sep :: t = c :: (cs ++ sep :: t) := rfl
    rw [e]
    simp only [stringsSplit, hc, if_false, ih hcs]

theorem stringsSplit_length (sep : Nat) (s : List Nat) :
    (stringsSplit sep s).length = s.count sep + 1 := by
  induction s with
  | nil => rfl
  | cons c cs ih =>
    by_cases hc : c = sep
    · subst hc
      simp [stringsSplit, ih]
    · have hne : (stringsSplit sep cs) ≠ [] := by
        intro h
        rw [h] at ih
        simp at ih
      obtain ⟨first, more, hfm⟩ := List.exists_cons_of_ne_nil hne
      have hc2 : ¬ (c == sep) = true := by simpa using hc
      simp only [stringsSplit, hc, if_false, hfm, List.length_cons, List.count_cons, hc2]
      rw [hfm] at ih
      simpa using ih

theorem atoiLoop_append (n : Nat) (xs ys : List Nat) :
    atoiLoop n (xs ++ ys) = (atoiLoop n xs).bind fun m => atoiLoop m ys := by
  induction xs generalizing n with
  | nil => rfl
  | cons c cs ih =>
    by_cases hc : 48 ≤ c ∧ c ≤ 57
    · have e : (c :: cs) ++ ys = c :: (cs ++ ys) := rfl
      rw [e]
      simp only [atoiLoop, hc, and_self, if_true, ih]
    · have e : (c :: cs) ++ ys = c :: (cs ++ ys) := rfl
      rw [e]
      simp only [atoiLoop, hc, if_false, Option.bind]

theorem atoiLoop_decimalDigits (fuel n : Nat) (h : n < fuel) :
    atoiLoop 0 (decimalDigits fuel n) = some n := by
  induction fuel generalizing n with
  | zero => omega
  | succ fuel ih =>
    by_cases hn : n < 10
    · have hd : 48 ≤ 48 + n ∧ 48 + n ≤ 57 := by omega
      simp only [decimalDigits, hn, if_true, atoiLoop, hd, and_self]
      congr 1
      omega
    · have hd : 48 ≤ 48 + n % 10 ∧ 48 + n % 10 ≤ 57 := by omega
      simp only [decimalDigits, hn, if_false, atoiLoop_append, ih (n / 10) (by omega),
        Option.bind, atoiLoop, hd, and_self, if_true]
      congr 1
      omega

theorem decimalDigits_mem (fuel n : Nat) :
    ∀ c ∈ decimalDigits fuel n, 48 ≤ c ∧ c ≤ 57 := by
  induction fuel generalizing n with
  | zero =>
    intro c hc
    simp [decimalDigits] at hc
  | succ fuel ih =>
    intro c hc
    by_cases hn : n < 10
    · simp only [decimalDigits, hn, if_true, List.mem_singleton] at hc
      omega
    · simp only [decimalDigits, hn, if_false, List.mem_append, List.mem_singleton] at hc
      rcases hc with h | h
      · exact ih _ c h
      · omega

theorem decimalDigits_ne_nil (fuel n : Nat) : decimalDigits (fuel + 1) n ≠ [] := by
  by_cases hn : n < 10
  · simp [decimalDigits, hn]
  · simp [decimalDigits, hn]

theorem decimal_mem (n : Int) : ∀ c ∈ decimal n, c = 45 ∨ (48 ≤ c ∧ c ≤ 57) := by
  intro c hc
  unfold decimal at hc
  split_ifs at hc
  · rcases List.mem_cons.mp hc with h | h
    · exact Or.inl h
    · exact Or.inr (decimalDigits_mem _ _ c h)
  · exact Or.inr (decimalDigits_mem _ _ c hc)

theorem strconvAtoi_decimal (n : Int) (hlo : -(2 : Int) ^ 63 ≤ n) (hhi : n < (2 : Int) ^ 63) :
    strconvAtoi (decimal n) = some n := by
  have hloop := atoiLoop_decimalDigits (n.natAbs + 1) n.natAbs (by omega)
  have hne := decimalDigits_ne_nil n.natAbs n.natAbs
  by_cases hneg : n < 0
  · have hd : decimal n = 45 :: decimalDigits (n.natAbs + 1) n.natAbs := by
      simp [decimal, hneg]
    have hle : n.natAbs ≤ 2 ^ 63 := by omega
    rw [hd]
    simp only [strconvAtoi, true_or, if_true, hne, if_false, hloop, hle]
    congr 1
    omega
  · have hd : decimal n = decimalDigits (n.natAbs + 1) n.natAbs := by
      simp [decimal, hneg]
    rw [hd]
    obtain ⟨d, ds, hds⟩ := List.exists_cons_of_ne_nil hne
    have hdm := decimalDigits_mem (n.natAbs + 1) n.natAbs d (by rw [hds]; simp)
    have h45 : ¬ d = 45 := by omega
    have h43 : ¬ d = 43 := by omega
    have hlt : n.natAbs < 2 ^ 63 := by omega
    rw [hds] at hloop
    rw [hds]
    simp only [strconvAtoi, h45, h43, or_self, if_false, reduceCtorEq, hloop, hlt, if_true]
    congr 1
    omega

/-- C13. For every type name `T` (a list of bytes) with no colon and every integer `n`
that fits the 64-bit `int`, `ID.UnmarshalJSON` on the standard base64 encoding of
`T`, a colon and the decimal text of `n`, between double quotes, returns no error and
sets the ID to `n`, whatever the ID was. -/
theorem unmarshalJSON_roundtrip (i : Int) (T : List Nat) (n : Int)
    (hT : ∀ b ∈ T, b < 256) (hcolon : 58 ∉ T)
    (hlo : -(2 : Int) ^ 63 ≤ n) (hhi : n < (2 : Int) ^ 63) :
    ID.UnmarshalJSON i (34 :: base64Encode (T ++ 58 :: decimal n) ++ [34]) = (n, none) := by
  have hbytes : ∀ b ∈ T ++ 58 :: decimal n, b < 256 := by
    intro b hb
    rcases List.mem_append.mp hb with h | h
    · exact hT b h
    · rcases List.mem_cons.mp h with h | h
      · omega
      · rcases decimal_mem n b h with h1 | h1 <;> omega
  have hdec : 58 ∉ decimal n := by
    intro h
    rcases decimal_mem n 58 h with h1 | h1 <;> omega
  have hquote : ¬ ((34 :: base64Encode (T ++ 58 :: decimal n) ++ [34]).length < 2
      ∨ (34 :: base64Encode (T ++ 58 :: decimal n) ++ [34]).head? ≠ some 34
      ∨ (34 :: base64Encode (T ++ 58 :: decimal n) ++ [34]).getLast? ≠ some 34) := by
    have e : (34 :: base64Encode (T ++ 58 :: decimal n) ++ [34])
        = (34 :: base64Encode (T ++ 58 :: decimal n)) ++ [34] := rfl
    have hl : (34 :: base64Encode (T ++ 58 :: decimal n) ++ [34]).getLast? = some 34 := by
      rw [e, List.getLast?_concat]
    rw [hl]
    simp
  have hinner : ((34 :: base64Encode (T ++ 58 :: decimal n) ++ [34]).drop 1).dropLast
      = base64Encode (T ++ 58 :: decimal n) := by
    simp
  unfold ID.UnmarshalJSON
  rw [if_neg hquote]
  simp only [hinner, base64Decode_base64Encode _ hbytes, stringsSplit_two 58 T _ hcolon hdec]
  simp [strconvAtoi_decimal n hlo hhi]

/-- C13, on the token of `Human:1000`. -/
theorem unmarshalJSON_roundtrip_witness :
    ID.UnmarshalJSON 0 (asciiBytes "\"SHVtYW46MTAwMA==\"") = (1000, none) :=
  (show asciiBytes "\"SHVtYW46MTAwMA==\""
      = 34 :: base64Encode (asciiBytes "Human" ++ 58 :: decimal 1000) ++ [34] by decide) ▸
    unmarshalJSON_roundtrip 0 (asciiBytes "Human") 1000 (by decide) (by decide)
      (by decide) (by decide)

/-- C14. `ID.UnmarshalJSON` returns an error exactly when the data are shorter than two
bytes or do not start and end with a double quote, or the bytes between the quotes are
not accepted by the standard base64 decoder, or the decoded payload does not hold
exactly one colon (so that it does not split in two), or the segment after the colon
is not accepted by `strconv.Atoi`; in every other case it returns no error. When it
returns an error the ID is left as it was. -/
theorem unmarshalJSON_error_iff (i : Int) (data : List Nat) :
    ((ID.UnmarshalJSON i data).2 ≠ none ↔
        ((data.length < 2 ∨ data.head? ≠ some 34 ∨ data.getLast? ≠ some 34)
          ∨ base64Decode (data.drop 1).dropLast = none
          ∨ (∃ payload, base64Decode (data.drop 1).dropLast = some payload
              ∧ payload.count 58 ≠ 1)
          ∨ (∃ payload first second,
              base64Decode (data.drop 1).dropLast = some payload
                ∧ stringsSplit 58 payload = [first, second]
                ∧ strconvAtoi second = none)))
      ∧ ((ID.UnmarshalJSON i data).2 ≠ none → (ID.UnmarshalJSON i data).1 = i) := by
  by_cases hq : data.length < 2 ∨ data.head? ≠ some 34 ∨ data.getLast? ≠ some 34
  · have hu : ID.UnmarshalJSON i data = (i, some .expectedString) := by
      unfold ID.UnmarshalJSON
      rw [if_pos hq]
    rw [hu]
    exact ⟨⟨fun _ => Or.inl hq, fun _ => by simp⟩, fun _ => rfl⟩
  · cases hdec : base64Decode (data.drop 1).dropLast with
    | none =>
      have hu : ID.UnmarshalJSON i data = (i, some .base64) := by
        unfold ID.UnmarshalJSON
        rw [if_neg hq]
        simp only [hdec]
      rw [hu]
      exact ⟨⟨fun _ => Or.inr (Or.inl rfl), fun _ => by simp⟩, fun _ => rfl⟩
    | some payload =>
      by_cases hlen : (stringsSplit 58 payload).length ≠ 2
      · have hu : ID.UnmarshalJSON i data = (i, some .unexpectedDecodedId) := by
          unfold ID.UnmarshalJSON
          rw [if_neg hq]
          simp only [hdec]
          rw [if_pos hlen]
        rw [hu]
        refine ⟨⟨fun _ => Or.inr (Or.inr (Or.inl ⟨payload, rfl, ?_⟩)), fun _ => by simp⟩,
          fun _ => rfl⟩
        rw [stringsSplit_length] at hlen
        omega
      · have hlen2 : (stringsSplit 58 payload).length = 2 := by
          by_contra h
          exact hlen h
        obtain ⟨first, second, hsplit⟩ := List.length_eq_two.mp hlen2
        have hcount : payload.count 58 = 1 := by
          rw [stringsSplit_length] at hlen2
          omega
        cases hatoi : strconvAtoi second with
        | none =>
          have hu : ID.UnmarshalJSON i data = (i, some .invalidId) := by
            unfold ID.UnmarshalJSON
            rw [if_neg hq]
            simp only [hdec]
            rw [if_neg hlen]
            simp only [hsplit, List.getD_cons_succ, List.getD_cons_zero, hatoi]
          rw [hu]
          exact ⟨⟨fun _ => Or.inr (Or.inr (Or.inr ⟨payload, first, second, rfl, hsplit, hatoi⟩)),
            fun _ => by simp⟩, fun _ => rfl⟩
        | some id =>
          have hu : ID.UnmarshalJSON i data = (id, none) := by
            unfold ID.UnmarshalJSON
            rw [if_neg hq]
            simp only [hdec]
            rw [if_neg hlen]
            simp only [hsplit, List.getD_cons_succ, List.getD_cons_zero, hatoi]
          rw [hu]
          refine ⟨⟨fun h => absurd rfl h, ?_⟩, fun h => absurd rfl h⟩
          rintro (h | h | ⟨p, hp, hc⟩ | ⟨p, f, sec, hp, hs, ha⟩)
          · exact absurd h hq
          · simp at h
          · simp only [Option.some.injEq] at hp
            subst hp
            exact absurd hcount hc
          · simp only [Option.some.injEq] at hp
            subst hp
            rw [hsplit] at hs
            simp only [List.cons.injEq, and_true] at hs
            rw [← hs.2, hatoi] at ha
            simp at ha

/-! ## The response binder -/

theorem storeMembers_eq (m : RawMap) (members : List (String × Json)) (key : String) :
    storeMembers m members key
      = match memberValue key members with
        | some v => some v
        | none => m key := by
  induction members generalizing m with
  | nil => rfl
  | cons kv rest ih =>
    obtain ⟨k, v⟩ := kv
    simp only [storeMembers, ih, memberValue]
    cases memberValue key rest with
    | some later => rfl
    | none =>
      by_cases hk : key = k
      · simp [RawMap.store, hk]
      · simp [RawMap.store, hk]

theorem jsonUnmarshalTest_data (members : List (String × Json)) :
    jsonUnmarshalTest (some (.object [("data", .object members)]))
      = .ok (storeMembers RawMap.empty members) := by
  have h : matchesData "data" = true := by decide
  simp only [jsonUnmarshalTest, decodeTest, h, if_true]

theorem Unmarshal_of_test {Val : Type} (table : Char → Char)
    (jsonUnmarshal : Ty → Json → Except String Val) (data : Option Json) (test : RawMap)
    (obj : List (StructField × Val)) (h : jsonUnmarshalTest data = .ok test) :
    Unmarshal table jsonUnmarshal data obj = unmarshalFields table jsonUnmarshal test obj := by
  simp only [Unmarshal, h]

theorem Unmarshal_of_error {Val : Type} (table : Char → Char)
    (jsonUnmarshal : Ty → Json → Except String Val) (data : Option Json) (err : String)
    (obj : List (StructField × Val)) (h : jsonUnmarshalTest data = .error err) :
    Unmarshal table jsonUnmarshal data obj = (obj, some err) := by
  simp only [Unmarshal, h]

theorem unmarshalFields_absent {Val : Type} (table : Char → Char)
    (jsonUnmarshal : Ty → Json → Except String Val) (test : RawMap)
    (fieldType : StructField) (field : Val) (rest : List (StructField × Val))
    (h : test (getName table fieldType) = none) :
    unmarshalFields table jsonUnmarshal test ((fieldType, field) :: rest)
      = ((fieldType, field) :: (unmarshalFields table jsonUnmarshal test rest).1,
          (unmarshalFields table jsonUnmarshal test rest).2) := by
  simp only [unmarshalFields, h]

theorem unmarshalFields_decoded {Val : Type} (table : Char → Char)
    (jsonUnmarshal : Ty → Json → Except String Val) (test : RawMap)
    (fieldType : StructField) (field p : Val) (rest : List (StructField × Val)) (raw : Json)
    (h : test (getName table fieldType) = some raw)
    (hp : jsonUnmarshal fieldType.Typ raw = .ok p) :
    unmarshalFields table jsonUnmarshal test ((fieldType, field) :: rest)
      = ((fieldType, p) :: (unmarshalFields table jsonUnmarshal test rest).1,
          (unmarshalFields table jsonUnmarshal test rest).2) := by
  simp only [unmarshalFields, h, hp]

theorem unmarshalFields_failed {Val : Type} (table : Char → Char)
    (jsonUnmarshal : Ty → Json → Except String Val) (test : RawMap)
    (fieldType : StructField) (field : Val) (rest : List (StructField × Val)) (raw : Json)
    (err : String) (h : test (getName table fieldType) = some raw)
    (hp : jsonUnmarshal fieldType.Typ raw = .error err) :
    unmarshalFields table jsonUnmarshal test ((fieldType, field) :: rest)
      = ((fieldType, field) :: rest, some err) := by
  simp only [unmarshalFields, h, hp]

theorem unmarshalFields_bound {Val : Type} (table : Char → Char)
    (jsonUnmarshal : Ty → Json → Except String Val) (test : RawMap)
    (obj result : List (StructField × Val))
    (h : unmarshalFields table jsonUnmarshal test obj = (result, none)) :
    List.Forall₂
      (fun before after => after.1 = before.1
        ∧ ∀ raw, test (getName table before.1) = some raw →
            jsonUnmarshal before.1.Typ raw = .ok after.2)
      obj result := by
  induction obj generalizing result with
  | nil =>
    simp only [unmarshalFields, Prod.mk.injEq, and_true] at h
    rw [← h]
    exact List.Forall₂.nil
  | cons b rest ih =>
    obtain ⟨fieldType, field⟩ := b
    cases hk : test (getName table fieldType) with
    | none =>
      rw [unmarshalFields_absent table jsonUnmarshal test fieldType field rest hk] at h
      simp only [Prod.mk.injEq] at h
      obtain ⟨h1, h2⟩ := h
      rw [← h1]
      refine List.Forall₂.cons ⟨rfl, ?_⟩ (ih _ (Prod.ext rfl h2))
      intro raw hraw
      rw [hk] at hraw
      cases hraw
    | some raw =>
      cases hp : jsonUnmarshal fieldType.Typ raw with
      | error err =>
        rw [unmarshalFields_failed table jsonUnmarshal test fieldType field rest raw err hk hp]
          at h
        simp at h
      | ok p =>
        rw [unmarshalFields_decoded table jsonUnmarshal test fieldType field p rest raw hk hp]
          at h
        simp only [Prod.mk.injEq] at h
        obtain ⟨h1, h2⟩ := h
        rw [← h1]
        refine List.Forall₂.cons ⟨rfl, ?_⟩ (ih _ (Prod.ext rfl h2))
        intro raw1 hraw
        rw [hk] at hraw
        cases hraw
        exact hp

theorem unmarshalFields_frame {Val : Type} (table : Char → Char)
    (jsonUnmarshal : Ty → Json → Except String Val) (test : RawMap)
    (obj : List (StructField × Val)) :
    List.Forall₂
      (fun before after => test (getName table before.1) = none → after = before)
      obj (unmarshalFields table jsonUnmarshal test obj).1 := by
  induction obj with
  | nil => exact List.Forall₂.nil
  | cons b rest ih =>
    obtain ⟨fieldType, field⟩ := b
    cases hk : test (getName table fieldType) with
    | none =>
      rw [unmarshalFields_absent table jsonUnmarshal test fieldType field rest hk]
      exact List.Forall₂.cons (fun _ => rfl) ih
    | some raw =>
      cases hp : jsonUnmarshal fieldType.Typ raw with
      | error err =>
        rw [unmarshalFields_failed table jsonUnmarshal test fieldType field rest raw err hk hp]
        refine List.Forall₂.cons (fun _ => rfl) ?_
        exact List.forall₂_same.mpr (fun _ _ _ => rfl)
      | ok p =>
        rw [unmarshalFields_decoded table jsonUnmarshal test fieldType field p rest raw hk hp]
        refine List.Forall₂.cons ?_ ih
        intro hnone
        simp only at hnone
        rw [hk] at hnone
        cases hnone

theorem unmarshalFields_error_origin {Val : Type} (table : Char → Char)
    (jsonUnmarshal : Ty → Json → Except String Val) (test : RawMap)
    (obj : List (StructField × Val)) (err : String)
    (h : (unmarshalFields table jsonUnmarshal test obj).2 = some err) :
    ∃ b ∈ obj, ∃ raw, test (getName table b.1) = some raw
      ∧ jsonUnmarshal b.1.Typ raw = .error err := by
  induction obj with
  | nil => simp [unmarshalFields] at h
  | cons b rest ih =>
    obtain ⟨fieldType, field⟩ := b
    cases hk : test (getName table fieldType) with
    | none =>
      rw [unmarshalFields_absent table jsonUnmarshal test fieldType field rest hk] at h
      obtain ⟨b, hb, raw, h1, h2⟩ := ih h
      exact ⟨b, List.mem_cons_of_mem _ hb, raw, h1, h2⟩
    | some raw =>
      cases hp : jsonUnmarshal fieldType.Typ raw with
      | error e =>
        rw [unmarshalFields_failed table jsonUnmarshal test fieldType field rest raw e hk hp]
          at h
        simp only [Option.some.injEq] at h
        subst h
        exact ⟨(fieldType, field), List.mem_cons_self _ _, raw, hk, hp⟩
      | ok p =>
        rw [unmarshalFields_decoded table jsonUnmarshal test fieldType field p rest raw hk hp]
          at h
        obtain ⟨b, hb, raw1, h1, h2⟩ := ih h
        exact ⟨b, List.mem_cons_of_mem _ hb, raw1, h1, h2⟩

theorem unmarshalFields_all_absent {Val : Type} (table : Char → Char)
    (jsonUnmarshal : Ty → Json → Except String Val) (test : RawMap)
    (obj : List (StructField × Val))
    (h : ∀ b ∈ obj, test (getName table b.1) = none) :
    unmarshalFields table jsonUnmarshal test obj = (obj, none) := by
  induction obj with
  | nil => rfl
  | cons b rest ih =>
    obtain ⟨fieldType, field⟩ := b
    have hk := h (fieldType, field) (List.mem_cons_self _ _)
    rw [unmarshalFields_absent table jsonUnmarshal test fieldType field rest hk,
      ih (fun b hb => h b (List.mem_cons_of_mem _ hb))]

theorem unmarshalFields_fail_fast {Val : Type} (table : Char → Char)
    (jsonUnmarshal : Ty → Json → Except String Val) (test : RawMap)
    (before after : List (StructField × Val)) (fieldType : StructField) (field : Val)
    (raw : Json) (err : String)
    (hbefore : ∀ b ∈ before, ∀ r, test (getName table b.1) = some r →
      ∃ p, jsonUnmarshal b.1.Typ r = .ok p)
    (hpresent : test (getName table fieldType) = some raw)
    (hfail : jsonUnmarshal fieldType.Typ raw = .error err) :
    unmarshalFields table jsonUnmarshal test (before ++ (fieldType, field) :: after)
      = (boundFields table jsonUnmarshal test before ++ (fieldType, field) :: after,
          some err) := by
  induction before with
  | nil =>
    exact unmarshalFields_failed table jsonUnmarshal test fieldType field after raw err
      hpresent hfail
  | cons b rest ih =>
    obtain ⟨ft, fv⟩ := b
    have ih2 := ih (fun b hb => hbefore b (List.mem_cons_of_mem _ hb))
    cases hk : test (getName table ft) with
    | none =>
      rw [List.cons_append,
        unmarshalFields_absent table jsonUnmarshal test ft fv _ hk, ih2]
      simp [boundFields, hk]
    | some r =>
      obtain ⟨p, hp⟩ := hbefore (ft, fv) (List.mem_cons_self _ _) r hk
      rw [List.cons_append,
        unmarshalFields_decoded table jsonUnmarshal test ft fv p _ r hk hp, ih2]
      simp [boundFields, hk, hp]

/-- C14, on a token whose payload `Human:1000:2` holds two colons: an error, and the ID
is as it was. -/
theorem unmarshalJSON_error_iff_witness :
    (ID.UnmarshalJSON 7 (34 :: base64Encode (asciiBytes "Human:1000:2") ++ [34])).2 ≠ none
      ∧ (ID.UnmarshalJSON 7 (34 :: base64Encode (asciiBytes "Human:1000:2") ++ [34])).1 = 7 :=
  ⟨(unmarshalJSON_error_iff 7 (34 :: base64Encode (asciiBytes "Human:1000:2") ++ [34])).1.mpr
      (Or.inr (Or.inr (Or.inl ⟨asciiBytes "Human:1000:2", by decide, by decide⟩))),
   (unmarshalJSON_error_iff 7 (34 :: base64Encode (asciiBytes "Human:1000:2") ++ [34])).2
      (by decide)⟩

/-- C15. For a payload that is an object with the key `data` holding the object `m`,
and any target: when `Unmarshal` returns no error, the target afterwards has the same
fields in the same order, and every field whose derived key `getName` (the name without
the annotation) has a value in `m` holds what decoding that value into a fresh value of
the type of the field gives. -/
theorem unmarshal_binds_present {Val : Type} (table : Char → Char)
    (jsonUnmarshal : Ty → Json → Except String Val) (m : List (String × Json))
    (obj result : List (StructField × Val))
    (h : Unmarshal table jsonUnmarshal (some (.object [("data", .object m)])) obj
      = (result, none)) :
    List.Forall₂
      (fun before after => after.1 = before.1
        ∧ ∀ raw, memberValue (getName table before.1) m = some raw →
            jsonUnmarshal before.1.Typ raw = .ok after.2)
      obj result := by
  rw [Unmarshal_of_test table jsonUnmarshal _ _ obj (jsonUnmarshalTest_data m)] at h
  have hb := unmarshalFields_bound table jsonUnmarshal _ obj result h
  refine List.Forall₂.imp ?_ hb
  intro before after hba
  refine ⟨hba.1, fun raw hraw => hba.2 raw ?_⟩
  rw [storeMembers_eq, hraw]

/-- C15, on the response of `TestConnection`: the field `Hero` holds the decoded `hero`
object. -/
theorem unmarshal_binds_present_witness :
    Unmarshal sampleTable sampleDecode (some testResponse) [(heroField, Json.null)]
        = ([(heroField, heroJson)], none)
      ∧ List.Forall₂
          (fun before after => after.1 = before.1
            ∧ ∀ raw, memberValue (getName sampleTable before.1) [("hero", heroJson)]
                  = some raw →
                sampleDecode before.1.Typ raw = .ok after.2)
          [(heroField, Json.null)] [(heroField, heroJson)] :=
  ⟨by rfl,
   unmarshal_binds_present sampleTable sampleDecode [("hero", heroJson)]
     [(heroField, Json.null)] [(heroField, heroJson)] (by rfl)⟩

/-- C16. For a valid payload, with `test` the mapping that the first `json.Unmarshal`
gives, and any target: a field whose derived key is not in the mapping is as it was
before the call, whether or not the call returns an error; an error that `Unmarshal`
returns is the error of decoding the value of a key that is present; and when no field
has its key in the mapping the target is unchanged and no error is returned. -/
theorem unmarshal_skips_absent {Val : Type} (table : Char → Char)
    (jsonUnmarshal : Ty → Json → Except String Val) (data : Option Json) (test : RawMap)
    (obj : List (StructField × Val)) (hvalid : jsonUnmarshalTest data = .ok test) :
    List.Forall₂
        (fun before after => test (getName table before.1) = none → after = before)
        obj (Unmarshal table jsonUnmarshal data obj).1
      ∧ (∀ err, (Unmarshal table jsonUnmarshal data obj).2 = some err →
          ∃ b ∈ obj, ∃ raw, test (getName table b.1) = some raw
            ∧ jsonUnmarshal b.1.Typ raw = .error err)
      ∧ ((∀ b ∈ obj, test (getName table b.1) = none) →
          Unmarshal table jsonUnmarshal data obj = (obj, none)) := by
  rw [Unmarshal_of_test table jsonUnmarshal data test obj hvalid]
  exact ⟨unmarshalFields_frame table jsonUnmarshal test obj,
    fun err h => unmarshalFields_error_origin table jsonUnmarshal test obj err h,
    fun h => unmarshalFields_all_absent table jsonUnmarshal test obj h⟩

/-- C16, on the response of `TestConnection` and a target whose only field is `Height`:
the response has no key `height`, the field keeps its value and there is no error. -/
theorem unmarshal_skips_absent_witness :
    Unmarshal sampleTable sampleDecode (some testResponse)
        [(.mk "Height" none Ty.basic, Json.number "1.72")]
      = ([(.mk "Height" none Ty.basic, Json.number "1.72")], none) :=
  (unmarshal_skips_absent sampleTable sampleDecode (some testResponse)
      (storeMembers RawMap.empty [("hero", heroJson)])
      [(.mk "Height" none Ty.basic, Json.number "1.72")] (by rfl)).2.2
    (fun b hb => by
      rw [List.mem_singleton] at hb
      subst hb
      rfl)

theorem decodeTest_bad_data (m : RawMap) (pre post : List (String × Json)) (key : String)
    (value : Json) (hkey : matchesData key = true) (hnull : value ≠ .null)
    (hobject : ∀ ms, value ≠ .object ms) :
    ∃ err, decodeTest m (pre ++ (key, value) :: post) = .error err := by
  induction pre generalizing m with
  | nil =>
    rw [List.nil_append]
    cases value with
    | null => exact absurd rfl hnull
    | object ms => exact absurd rfl (hobject ms)
    | bool b =>
      refine ⟨"json: cannot unmarshal into Go struct field .Data", ?_⟩
      simp only [decodeTest, hkey, if_true]
    | number t =>
      refine ⟨"json: cannot unmarshal into Go struct field .Data", ?_⟩
      simp only [decodeTest, hkey, if_true]
    | string t =>
      refine ⟨"json: cannot unmarshal into Go struct field .Data", ?_⟩
      simp only [decodeTest, hkey, if_true]
    | array es =>
      refine ⟨"json: cannot unmarshal into Go struct field .Data", ?_⟩
      simp only [decodeTest, hkey, if_true]
  | cons kv rest ih =>
    obtain ⟨k0, v0⟩ := kv
    rw [List.cons_append]
    by_cases h0 : matchesData k0 = true
    · cases v0 with
      | null =>
        obtain ⟨err, he⟩ := ih RawMap.empty
        refine ⟨err, ?_⟩
        simp only [decodeTest, h0, if_true]
        exact he
      | object ms =>
        obtain ⟨err, he⟩ := ih (storeMembers m ms)
        refine ⟨err, ?_⟩
        simp only [decodeTest, h0, if_true]
        exact he
      | bool b =>
        refine ⟨"json: cannot unmarshal into Go struct field .Data", ?_⟩
        simp only [decodeTest, h0, if_true]
      | number t =>
        refine ⟨"json: cannot unmarshal into Go struct field .Data", ?_⟩
        simp only [decodeTest, h0, if_true]
      | string t =>
        refine ⟨"json: cannot unmarshal into Go struct field .Data", ?_⟩
        simp only [decodeTest, h0, if_true]
      | array es =>
        refine ⟨"json: cannot unmarshal into Go struct field .Data", ?_⟩
        simp only [decodeTest, h0, if_true]
    · obtain ⟨err, he⟩ := ih m
      refine ⟨err, ?_⟩
      simp only [decodeTest, h0, if_false]
      exact he

theorem decodeTest_null_data (members : List (String × Json))
    (h : ∀ kv ∈ members, matchesData kv.1 = true → kv.2 = .null) :
    decodeTest RawMap.empty members = .ok RawMap.empty := by
  induction members with
  | nil => rfl
  | cons kv rest ih =>
    obtain ⟨k0, v0⟩ := kv
    have ih2 := ih (fun kv hkv => h kv (List.mem_cons_of_mem _ hkv))
    by_cases h0 : matchesData k0 = true
    · have hv : v0 = .null := h (k0, v0) (List.mem_cons_self _ _) h0
      subst hv
      simp only [decodeTest, h0, if_true, ih2]
    · simp only [decodeTest, h0, if_false, ih2]
      rfl

/-- C18, as amended. `Unmarshal` returns an error and leaves the target as it was for a
payload that is not valid JSON, for a document that is neither an object nor `null`,
and for an object with a member whose key is `data` (in any letter case) and whose
value is neither an object nor `null`. An object in which every member with the key
`data` is `null`, so also an object with no key `data`, and the document `null` are
accepted: `Unmarshal` returns no error and leaves the target as it was. -/
theorem unmarshal_structure_errors {Val : Type} (table : Char → Char)
    (jsonUnmarshal : Ty → Json → Except String Val) (obj : List (StructField × Val)) :
    (∃ err, Unmarshal table jsonUnmarshal none obj = (obj, some err))
      ∧ (∀ doc : Json, doc ≠ .null → (∀ ms, doc ≠ .object ms) →
          ∃ err, Unmarshal table jsonUnmarshal (some doc) obj = (obj, some err))
      ∧ (∀ (pre post : List (String × Json)) (key : String) (value : Json),
          matchesData key = true → value ≠ .null → (∀ ms, value ≠ .object ms) →
          ∃ err, Unmarshal table jsonUnmarshal
              (some (.object (pre ++ (key, value) :: post))) obj = (obj, some err))
      ∧ (∀ members : List (String × Json),
          (∀ kv ∈ members, matchesData kv.1 = true → kv.2 = .null) →
          Unmarshal table jsonUnmarshal (some (.object members)) obj = (obj, none))
      ∧ Unmarshal table jsonUnmarshal (some .null) obj = (obj, none) := by
  refine ⟨⟨_, Unmarshal_of_error table jsonUnmarshal none _ obj rfl⟩, ?_, ?_, ?_, ?_⟩
  · intro doc hnull hobject
    cases doc with
    | null => exact absurd rfl hnull
    | object ms => exact absurd rfl (hobject ms)
    | bool b => exact ⟨_, Unmarshal_of_error table jsonUnmarshal _ _ obj rfl⟩
    | number t => exact ⟨_, Unmarshal_of_error table jsonUnmarshal _ _ obj rfl⟩
    | string t => exact ⟨_, Unmarshal_of_error table jsonUnmarshal _ _ obj rfl⟩
    | array es => exact ⟨_, Unmarshal_of_error table jsonUnmarshal _ _ obj rfl⟩
  · intro pre post key value hkey hnull hobject
    obtain ⟨err, he⟩ := decodeTest_bad_data RawMap.empty pre post key value hkey hnull hobject
    exact ⟨err, Unmarshal_of_error table jsonUnmarshal _ err obj he⟩
  · intro members h
    have ht : jsonUnmarshalTest (some (.object members)) = .ok RawMap.empty :=
      decodeTest_null_data members h
    rw [Unmarshal_of_test table jsonUnmarshal (some (.object members)) RawMap.empty obj ht]
    exact unmarshalFields_all_absent table jsonUnmarshal RawMap.empty obj (fun _ _ => rfl)
  · rw [Unmarshal_of_test table jsonUnmarshal (some .null) RawMap.empty obj rfl]
    exact unmarshalFields_all_absent table jsonUnmarshal RawMap.empty obj (fun _ _ => rfl)

/-- C18, as amended, on a payload whose `data` is a number (an error) and on a response
with errors and no `data` (no error); the target is as it was in both. -/
theorem unmarshal_structure_errors_witness :
    (∃ err, Unmarshal sampleTable sampleDecode
        (some (.object [("data", .number "5")])) [(heroField, Json.null)]
          = ([(heroField, Json.null)], some err))
      ∧ Unmarshal sampleTable sampleDecode (some errorsResponse) [(heroField, Json.null)]
          = ([(heroField, Json.null)], none) :=
  ⟨(unmarshal_structure_errors sampleTable sampleDecode [(heroField, Json.null)]).2.2.1
      [] [] "data" (.number "5") (by decide) (by simp) (by simp),
   (unmarshal_structure_errors sampleTable sampleDecode [(heroField, Json.null)]).2.2.2.1
      [ ("errors", .array [ .object [ ("message", .string "not found") ] ]) ]
      (fun kv hkv hm => by
        rw [List.mem_singleton] at hkv
        subst hkv
        exact absurd hm (by decide))⟩

/-- C18 as first stated fails. A response with no key `data`, and the empty object:
`Unmarshal` returns no error. -/
theorem unmarshal_structure_errors_counterexample :
    (Unmarshal sampleTable sampleDecode (some errorsResponse) [(heroField, Json.null)]).2
        = none
      ∧ (Unmarshal sampleTable sampleDecode (some (.object [])) [(heroField, Json.null)]).2
        = none := by
  exact ⟨by rfl, by rfl⟩

/-! ## Braces -/

theorem excess_append (a b : String) : excess (a ++ b) = excess a + excess b := by
  simp only [excess, String.data_append, List.count_append]
  push_cast
  ring

theorem excess_indentation (n : Nat) : excess (indentation n) = 0 := by
  induction n with
  | zero => rfl
  | succ n ih =>
    have h : excess "  " = 0 := by decide
    rw [indentation, excess_append, ih, h]
    rfl

theorem excess_openLine (label : String) : excess (openLine label) = excess label + 1 := by
  have h1 : excess " \x7b\n" = 1 := by decide
  have h2 : excess "\x7b\n" = 1 := by decide
  unfold openLine
  by_cases h : label.length > 0
  · rw [if_pos h, excess_append, h1]
  · rw [if_neg h, h2]
    have hl : label = "" := by
      by_contra hne
      exact h (length_pos_of_ne_empty label hne)
    rw [hl]
    rfl

theorem excess_Println_name (w : Writer) (name : String) :
    excess (w.Println [name]).buf = excess w.buf + excess name := by
  have h : excess "\n" = 0 := by decide
  rw [Println_eq]
  simp only [fmtSprintln, stringsJoin, excess_append, excess_indentation, h]
  ring

theorem excess_Scope (w : Writer) (label : String) (f : Writer → Writer)
    (hf : ∀ v : Writer, excess (f v).buf = excess v.buf) :
    excess (w.Scope label f).buf = excess w.buf + excess label := by
  have h : excess "\x7d\n" = -1 := by decide
  rw [Scope_eq]
  simp only [excess_append, hf, excess_indentation, excess_openLine, h]
  ring

mutual
theorem query_excess (table : Char → Char) :
    ∀ (ty : Ty) (w : Writer) (label : String), excess label = 0 → Ty.Balanced table ty →
      excess (query table w label ty).buf = excess w.buf
  | .Struct tyName fields marshal, w, label, hl, h => by
    by_cases hc : tyName = ConnectionName
    · subst hc
      rw [query_Connection]
      exact queryStruct_excess table fields w (by simpa [Ty.Balanced] using h)
    · cases marshal with
      | some m =>
        rw [query_rendered table w label tyName fields m hc]
        have hm : keepsExcess m := by simpa [Ty.Balanced, hc] using h
        exact hm w label hl
      | none =>
        rw [query_plain table w label tyName fields hc]
        have hfs : fieldsBalanced table fields := by simpa [Ty.Balanced, hc] using h
        rw [excess_Scope w label _ (fun v => queryStruct_excess table fields v hfs), hl]
        ring
  | .Slice elem m, w, label, hl, h => by
    rw [query_Slice]
    exact query_excess table elem w label hl (by simpa [Ty.Balanced] using h)
  | .Other m, w, label, hl, _ => by
    rw [query_Other, excess_Println_name, hl]
    ring
theorem queryStruct_excess (table : Char → Char) :
    ∀ (fields : List StructField) (w : Writer), fieldsBalanced table fields →
      excess (queryStruct table w fields).buf = excess w.buf
  | [], w, _ => by rw [queryStruct_nil]
  | .mk fieldName tag fieldType :: rest, w, h => by
    have h3 : excess (getNameAndArguments table (.mk fieldName tag fieldType)) = 0
        ∧ Ty.Balanced table fieldType ∧ fieldsBalanced table rest := by
      simpa [fieldsBalanced] using h
    rw [queryStruct_cons, queryStruct_excess table rest _ h3.2.2]
    exact query_excess table fieldType w _ h3.1 h3.2.1
end

/-- C19, as amended. For a valid root shape of any depth in which the signature and the
name with annotation of every field have as many opening braces as closing ones, and
whose renderers keep the balance of braces, the text compiled by `Marshal` has as many
opening braces as closing ones. -/
theorem marshal_braces_balanced (table : Char → Char) (q : Query)
    (hk : q.object.Kind = Kind.Struct) (hn : q.object.NumField ≠ 0)
    (hsig : excess q.signature = 0) (hfields : fieldsBalanced table q.object.Fields) :
    ∃ text : String, q.Marshal table = .ok text
      ∧ text.data.count '\x7b' = text.data.count '\x7d' := by
  refine ⟨_, Marshal_eq_Scope table q hk hn, ?_⟩
  have h := excess_Scope Writer.new q.signature
    (fun v => queryStruct table v q.object.Fields)
    (fun v => queryStruct_excess table q.object.Fields v hfields)
  rw [hsig] at h
  have h0 : excess Writer.new.buf = 0 := by decide
  rw [h0] at h
  simp only [excess, add_zero] at h
  omega

theorem keepsExcess_HideStruct : keepsExcess HideStruct.MarshalGraphQL := by
  intro w name hname
  show excess (w.Println [name]).buf = excess w.buf
  rw [excess_Println_name, hname]
  ring

/-- C19, as amended, on the shape of `TestMarshalGraphQL`. -/
theorem marshal_braces_balanced_witness :
    ∃ text : String, Query.Marshal sampleTable (NewQuery "" testMarshalGraphQL) = .ok text
      ∧ text.data.count '\x7b' = text.data.count '\x7d' :=
  marshal_braces_balanced sampleTable (NewQuery "" testMarshalGraphQL) (by rfl) (by decide)
    (by decide)
    (by
      have hc : ("" : String) ≠ ConnectionName := by decide
      simp only [NewQuery, testMarshalGraphQL, Ty.Fields, testHidden, Ty.basic,
        fieldsBalanced, Ty.Balanced, hc, if_false]
      exact ⟨by decide, ⟨by decide, trivial, by decide, trivial, by decide,
        keepsExcess_HideStruct, trivial⟩, trivial⟩)

/-- C19 as first stated fails. The annotation of the field holds an opening brace in a
string: the compiled text has three opening braces and two closing ones. -/
theorem marshal_braces_balanced_counterexample :
    Query.Marshal sampleTable (NewQuery "" braceShape)
        = .ok "\x7b\n  human(name: \"\x7b\") \x7b\n    name\n  \x7d\n\x7d\n"
      ∧ "\x7b\n  human(name: \"\x7b\") \x7b\n    name\n  \x7d\n\x7d\n".data.count '\x7b' = 3
      ∧ "\x7b\n  human(name: \"\x7b\") \x7b\n    name\n  \x7d\n\x7d\n".data.count '\x7d' = 2 := by
  exact ⟨by rfl, by decide, by decide⟩

/-! ## Indentation -/

mutual
theorem query_expected (table : Char → Char) :
    ∀ (ty : Ty) (w : Writer) (label : String) (depth : Nat), w.level = (depth : Int) →
      Ty.Standard ty →
      query table w label ty = ⟨w.buf ++ expectedText table depth label ty, w.level⟩
  | .Struct tyName fields marshal, w, label, depth, hl, h => by
    have hd : w.level.toNat = depth := by omega
    by_cases hc : tyName = ConnectionName
    · subst hc
      rw [query_Connection]
      simp only [expectedText, if_true]
      exact queryStruct_expected table fields w depth hl (by simpa [Ty.Standard] using h)
    · cases marshal with
      | some m =>
        have hm : m = HideStruct.MarshalGraphQL := by simpa [Ty.Standard, hc] using h
        subst hm
        rw [query_rendered table w label tyName fields _ hc]
        simp only [expectedText, hc, if_false, HideStruct.MarshalGraphQL, Println_eq,
          fmtSprintln, stringsJoin, hd, String.append_assoc]
      | none =>
        have hfs : fieldsStandard fields := by simpa [Ty.Standard, hc] using h
        rw [query_plain table w label tyName fields hc, Scope_eq]
        have hin := queryStruct_expected table fields
          ⟨w.buf ++ (indentation w.level.toNat ++ openLine label), w.level + 1⟩ (depth + 1)
          (by simp only [hl]; push_cast; ring) hfs
        rw [hin]
        simp only [expectedText, hc, if_false, add_sub_cancel_right, hd, String.append_assoc]
  | .Slice elem m, w, label, depth, hl, h => by
    rw [query_Slice]
    simp only [expectedText]
    exact query_expected table elem w label depth hl (by simpa [Ty.Standard] using h)
  | .Other m, w, label, depth, hl, _ => by
    have hd : w.level.toNat = depth := by omega
    rw [query_Other, Println_eq]
    simp only [expectedText, fmtSprintln, stringsJoin, hd, String.append_assoc]
theorem queryStruct_expected (table : Char → Char) :
    ∀ (fields : List StructField) (w : Writer) (depth : Nat), w.level = (depth : Int) →
      fieldsStandard fields →
      queryStruct table w fields = ⟨w.buf ++ expectedFields table depth fields, w.level⟩
  | [], w, depth, _, _ => by
    simp only [queryStruct_nil, expectedFields, String.append_empty]
  | .mk fieldName tag fieldType :: rest, w, depth, hl, h => by
    have h2 : Ty.Standard fieldType ∧ fieldsStandard rest := by
      simpa [fieldsStandard] using h
    rw [queryStruct_cons]
    simp only [StructField.Typ]
    rw [query_expected table fieldType w _ depth hl h2.1,
      queryStruct_expected table rest
        ⟨w.buf ++ expectedText table depth
          (getNameAndArguments table (.mk fieldName tag fieldType)) fieldType, w.level⟩
        depth hl h2.2]
    simp only [expectedFields, String.append_assoc]
end

/-- C20, as amended. `Println` writes one line: two spaces per level (none for a level
below one), the tokens joined by single spaces, a newline, and leaves the level as it
was. `Scope` runs its body one level deeper and sets the level one below the level the
body left, which is the level before when the body leaves the level as it found it.
Hence, for a shape whose renderers are those of `HideStruct`: the fields compiled from
a writer at a level give the text of the specification at that depth, in which every
line starts with two spaces per level of depth; and on a valid root `Marshal` gives the
opening line without indentation, the fields at depth one and the closing line without
indentation, and the level of the writer is zero at the end. -/
theorem indentation_tracks_nesting (table : Char → Char) :
    (∀ (w : Writer) (a : List String),
        w.Println a
          = ⟨w.buf ++ (indentation w.level.toNat ++ (" ".intercalate a ++ "\n")), w.level⟩)
      ∧ (∀ (w : Writer) (label : String) (f : Writer → Writer),
          w.Scope label f
            = ⟨(f ⟨w.buf ++ (indentation w.level.toNat ++ openLine label), w.level + 1⟩).buf
                ++ (indentation
                      ((f ⟨w.buf ++ (indentation w.level.toNat ++ openLine label),
                          w.level + 1⟩).level - 1).toNat ++ "\x7d\n"),
                (f ⟨w.buf ++ (indentation w.level.toNat ++ openLine label),
                    w.level + 1⟩).level - 1⟩)
      ∧ (∀ (w : Writer) (label : String) (f : Writer → Writer),
          (∀ v : Writer, (f v).level = v.level) → (w.Scope label f).level = w.level)
      ∧ (∀ (w : Writer) (depth : Nat) (fields : List StructField),
          w.level = (depth : Int) → fieldsStandard fields →
          queryStruct table w fields = ⟨w.buf ++ expectedFields table depth fields, w.level⟩)
      ∧ (∀ q : Query, q.object.Kind = Kind.Struct → q.object.NumField ≠ 0 →
          fieldsStandard q.object.Fields →
          q.Marshal table
              = .ok (openLine q.signature ++ expectedFields table 1 q.object.Fields
                      ++ "\x7d\n")
            ∧ (Writer.new.Scope q.signature
                (fun v => queryStruct table v q.object.Fields)).level = 0) := by
  refine ⟨?_, Scope_eq, ?_, ?_, ?_⟩
  · intro w a
    rw [Println_eq, fmtSprintln, stringsJoin_eq_intercalate]
  · intro w label f hf
    rw [Scope_eq]
    simp only [hf, add_sub_cancel_right]
  · intro w depth fields hl hs
    exact queryStruct_expected table fields w depth hl hs
  · intro q hk hn hs
    have hl : (⟨Writer.new.buf ++ (indentation Writer.new.level.toNat
        ++ openLine q.signature), Writer.new.level + 1⟩ : Writer).level = ((1 : Nat) : Int) := by
      simp [Writer.new]
    have hin := queryStruct_expected table q.object.Fields
      ⟨Writer.new.buf ++ (indentation Writer.new.level.toNat ++ openLine q.signature),
        Writer.new.level + 1⟩ 1 hl hs
    constructor
    · rw [Marshal_eq_Scope table q hk hn, Scope_eq, hin]
      simp [Writer.new, indentation, String.append_assoc]
    · rw [Scope_eq, hin]
      rfl

/-- C20, as amended, on the shape of `TestMarshalGraphQL`. -/
theorem indentation_tracks_nesting_witness :
    Query.Marshal sampleTable (NewQuery "" testMarshalGraphQL)
        = .ok "\x7b\n  human(id: \"1000\") \x7b\n    name\n    height(unit: FOOT)\n    test\n  \x7d\n\x7d\n"
      ∧ (Writer.new.Scope (NewQuery "" testMarshalGraphQL).signature
          (fun v => queryStruct sampleTable v (NewQuery "" testMarshalGraphQL).object.Fields)).level
        = 0 :=
  have h := (indentation_tracks_nesting sampleTable).2.2.2.2 (NewQuery "" testMarshalGraphQL)
    (by rfl) (by decide)
    (by
      have hc : ("" : String) ≠ ConnectionName := by decide
      simp only [NewQuery, testMarshalGraphQL, Ty.Fields, testHidden, Ty.basic,
        fieldsStandard, Ty.Standard, hc, if_false]
      exact ⟨⟨trivial, trivial, trivial, trivial⟩, trivial⟩)
  ⟨h.1.trans (by rfl), h.2⟩

/-- C20 as first stated fails. A renderer may write to the writer without indenting:
the line of the field `Secret`, two scopes deep, starts with no space. A renderer may
also start the writer afresh: the level at the end is then one below zero. -/
theorem indentation_tracks_nesting_counterexample :
    Query.Marshal sampleTable (NewQuery "" (renderedBelow plainRenderer))
        = .ok "\x7b\n  hero \x7b\n    name\nsecret\n    height\n  \x7d\n\x7d\n"
      ∧ (Writer.new.Scope "" (fun v =>
            queryStruct sampleTable v (renderedSecond freshRenderer).Fields)).level = -1 := by
  exact ⟨by rfl, by decide⟩

/-! ## Calls that panic -/

theorem ScopeRun_returns (w : Writer) (label : String) (f : Writer → Outcome Writer)
    (g : Writer → Writer) (h : ∀ v, f v = .returns (g v)) :
    w.ScopeRun label f = .returns (w.Scope label g) := by
  simp only [Writer.ScopeRun, Writer.Scope, h]

theorem ScopeRun_panics (w : Writer) (label : String) (f : Writer → Outcome Writer)
    (message : String) (h : ∀ v, f v = .panics message) :
    w.ScopeRun label f = .panics message := by
  simp only [Writer.ScopeRun, h]

theorem queryRun_rendered (table : Char → Char) (panics : Ty → Writer → String → Bool)
    (w : Writer) (name tyName : String) (fields : List StructField) (m : Marshaler)
    (h : tyName ≠ ConnectionName)
    (hp : panics (.Struct tyName fields (some m)) w name = false) :
    queryRun table panics w name (.Struct tyName fields (some m)) = .returns (m w name).1 := by
  simp only [queryRun, h, if_false, hp]
  generalize m w name = r
  obtain ⟨w1, e⟩ := r
  cases e <;> rfl

theorem queryRun_panicking (table : Char → Char) (panics : Ty → Writer → String → Bool)
    (w : Writer) (name tyName : String) (fields : List StructField) (m : Marshaler)
    (h : tyName ≠ ConnectionName)
    (hp : panics (.Struct tyName fields (some m)) w name = true) :
    queryRun table panics w name (.Struct tyName fields (some m)) = .panics nilDereference := by
  simp only [queryRun, h, if_false, hp, if_true]

theorem queryStructRun_cons (table : Char → Char) (panics : Ty → Writer → String → Bool)
    (w : Writer) (field : StructField) (rest : List StructField) :
    queryStructRun table panics w (field :: rest)
      = match queryRun table panics w (getNameAndArguments table field) field.Typ with
        | .panics message => .panics message
        | .returns w1 => queryStructRun table panics w1 rest := by
  cases field
  simp only [queryStructRun, StructField.Typ]

mutual
theorem queryRun_returns (table : Char → Char) (panics : Ty → Writer → String → Bool) :
    ∀ (ty : Ty) (w : Writer) (name : String), Ty.Returning panics ty →
      queryRun table panics w name ty = .returns (query table w name ty)
  | .Struct tyName fields marshal, w, name, h => by
    by_cases hc : tyName = ConnectionName
    · subst hc
      rw [query_Connection]
      have hfs : fieldsReturning panics fields := by simpa [Ty.Returning] using h
      simp only [queryRun, if_true]
      exact queryStructRun_returns table panics fields w hfs
    · cases marshal with
      | some m =>
        have hm : ∀ (v : Writer) (label : String),
            panics (.Struct tyName fields (some m)) v label = false := by
          simpa [Ty.Returning, hc] using h
        rw [query_rendered table w name tyName fields m hc,
          queryRun_rendered table panics w name tyName fields m hc (hm w name)]
      | none =>
        have hfs : fieldsReturning panics fields := by simpa [Ty.Returning, hc] using h
        rw [query_plain table w name tyName fields hc]
        simp only [queryRun, hc, if_false]
        exact ScopeRun_returns w name _ _
          (fun v => queryStructRun_returns table panics fields v hfs)
  | .Slice elem m, w, name, h => by
    rw [query_Slice]
    simp only [queryRun]
    exact queryRun_returns table panics elem w name (by simpa [Ty.Returning] using h)
  | .Other m, w, name, _ => by
    rw [query_Other]
    simp only [queryRun]
theorem queryStructRun_returns (table : Char → Char)
    (panics : Ty → Writer → String → Bool) :
    ∀ (fields : List StructField) (w : Writer), fieldsReturning panics fields →
      queryStructRun table panics w fields = .returns (queryStruct table w fields)
  | [], w, _ => by
    rw [queryStruct_nil]
    simp only [queryStructRun]
  | .mk fieldName tag fieldType :: rest, w, h => by
    have h2 : Ty.Returning panics fieldType ∧ fieldsReturning panics rest := by
      simpa [fieldsReturning] using h
    rw [queryStruct_cons, queryStructRun_cons]
    simp only [StructField.Typ, queryRun_returns table panics fieldType w _ h2.1]
    exact queryStructRun_returns table panics rest _ h2.2
end

/-- C5, as amended. For an object that is not nil, of a type in which no call of a
renderer panics: `Marshal` returns, and never panics; it returns the error
`query object must be a non-empty struct`, and so no text, exactly when the type is
not of kind struct or is a struct with no field; it returns a text, and so no error,
exactly when the type is a struct with one field or more; it returns no other error;
and what it returns is what `Query.Marshal` gives on the type. -/
theorem marshal_error_iff (table : Char → Char) (panics : Ty → Writer → String → Bool)
    (q : AnyQuery) (qType : Ty) (hobject : q.object = some qType)
    (hreturn : fieldsReturning panics qType.Fields) :
    (q.Marshal table panics = .returns (.error "query object must be a non-empty struct")
        ↔ (qType.Kind ≠ Kind.Struct ∨ qType.NumField = 0))
      ∧ ((∃ text : String, q.Marshal table panics = .returns (.ok text))
        ↔ (qType.Kind = Kind.Struct ∧ 1 ≤ qType.NumField))
      ∧ (∀ e : String, q.Marshal table panics = .returns (.error e)
          → e = "query object must be a non-empty struct")
      ∧ (∀ message : String, q.Marshal table panics ≠ .panics message)
      ∧ q.Marshal table panics = .returns (Query.Marshal table ⟨q.name, qType, q.vars⟩) := by
  have hm : q.Marshal table panics
      = .returns (Query.Marshal table ⟨q.name, qType, q.vars⟩) := by
    simp only [AnyQuery.Marshal, hobject, Query.Marshal]
    by_cases h : qType.Kind ≠ Kind.Struct ∨ qType.NumField = 0
    · simp only [h, if_true]
    · simp only [h, if_false]
      rw [ScopeRun_returns _ _ _ (fun v => queryStruct table v qType.Fields)
        (fun v => queryStructRun_returns table panics qType.Fields v hreturn)]
  obtain ⟨h1, h2, h3⟩ := Marshal_returns_iff table ⟨q.name, qType, q.vars⟩
  rw [hm]
  refine ⟨?_, ?_, ?_, ?_, rfl⟩
  · exact ⟨fun h => h1.mp (Outcome.returns.inj h), fun h => congrArg Outcome.returns (h1.mpr h)⟩
  · constructor
    · rintro ⟨text, ht⟩
      exact h2.mp ⟨text, Outcome.returns.inj ht⟩
    · intro h
      obtain ⟨text, ht⟩ := h2.mpr h
      exact ⟨text, congrArg Outcome.returns ht⟩
  · intro e he
    exact h3 e (Outcome.returns.inj he)
  · intro message h
    cases h

/-- C5, as amended, on the shape of `TestMarshalGraphQL`, whose struct `Test` embeds
`HideStruct` by value: `Marshal` returns the text. -/
theorem marshal_error_iff_witness :
    AnyQuery.Marshal sampleTable promotedFromPointer ⟨"", some testMarshalGraphQL, []⟩
      = .returns (.ok "\x7b\n  human(id: \"1000\") \x7b\n    name\n    height(unit: FOOT)\n    test\n  \x7d\n\x7d\n") :=
  (marshal_error_iff sampleTable promotedFromPointer ⟨"", some testMarshalGraphQL, []⟩
    testMarshalGraphQL rfl
    (by
      have hc : ("" : String) ≠ ConnectionName := by decide
      simp only [testMarshalGraphQL, Ty.Fields, testHidden, Ty.basic, fieldsReturning,
        Ty.Returning, hc, if_false]
      exact ⟨⟨trivial, trivial, fun _ _ => rfl, trivial⟩, trivial⟩)).2.2.2.2.trans (by rfl)

/-- C5 as first stated fails. With a nil object, which is not a struct, `Marshal`
returns no error: it panics. With a root that is a struct with one field, of a struct
type whose method is promoted from the embedded `*HideStruct`, it returns no text: it
panics. -/
theorem marshal_error_iff_counterexample :
    AnyQuery.Marshal sampleTable promotedFromPointer ⟨"", none, []⟩
        = .panics nilDereference
      ∧ AnyQuery.Marshal sampleTable promotedFromPointer
          ⟨"", some (.Struct "" [ .mk "Test" none testHiddenPointer ] none), []⟩
        = .panics nilDereference := by
  exact ⟨by rfl, by rfl⟩

/-- C7, as amended. A field whose struct type has in its method set the
`MarshalGraphQL` of `HideStruct`, promoted from a `HideStruct` that the struct embeds
by value, so that the call on the zero value does not panic, whatever members the
struct declares: `query` writes for it one line at the current level, the derived name
of the field followed by its annotation in parentheses if it has one, leaves the level
as it was, and goes on with the fields that follow; no scope and no line is written
for a member of the struct. -/
theorem hideStruct_single_line (table : Char → Char)
    (panics : Ty → Writer → String → Bool) (w : Writer)
    (fieldName : String) (tag : Option String) (tyName : String)
    (members rest : List StructField) (hty : tyName ≠ ConnectionName)
    (hvalue : ∀ (v : Writer) (name : String),
      panics (.Struct tyName members (some HideStruct.MarshalGraphQL)) v name = false) :
    queryStructRun table panics w
        (.mk fieldName tag (.Struct tyName members (some HideStruct.MarshalGraphQL)) :: rest)
      = queryStructRun table panics
          ⟨w.buf ++ (indentation w.level.toNat
              ++ (getName table (.mk fieldName tag
                    (.Struct tyName members (some HideStruct.MarshalGraphQL)))
                  ++ (match tag with
                      | some a => "(" ++ a ++ ")"
                      | none => ""))
              ++ "\n"), w.level⟩
          rest := by
  rw [queryStructRun_cons]
  simp only [StructField.Typ, queryRun_rendered table panics _ _ _ _ _ hty (hvalue _ _),
    HideStruct.MarshalGraphQL, Println_eq, fmtSprintln, stringsJoin, getNameAndArguments_eq,
    annotation, StructField.Tag, String.append_assoc]

/-- C7, as amended, on `TestMarshalGraphQL`: the field `Test`, whose type embeds
`HideStruct` by value, at two indents. -/
theorem hideStruct_single_line_witness :
    queryStructRun sampleTable promotedFromPointer ⟨"", 2⟩ [ .mk "Test" none testHidden ]
      = .returns ⟨"    test\n", 2⟩ :=
  (hideStruct_single_line sampleTable promotedFromPointer ⟨"", 2⟩ "Test" none ""
      [ .mk "HideStruct" none HideStruct, .mk "Name" none Ty.basic ] [] (by decide)
      (fun _ _ => rfl)).trans (by rfl)

/-- C7 as first stated fails. The struct `struct \x7b *HideStruct; Name string \x7d`
gets the capability from `HideStruct` by embedding a pointer to it: for a field of
that type `query` writes no line, the call of the promoted method on the zero value
panics. -/
theorem hideStruct_single_line_counterexample :
    queryStructRun sampleTable promotedFromPointer ⟨"", 2⟩
        [ .mk "Test" none testHiddenPointer ]
      = .panics nilDereference := by
  rfl

theorem unmarshalFieldsRun_returned {Val : Type} (table : Char → Char)
    (jsonUnmarshal : Ty → Json → Except String Val) (canSet : StructField → Bool)
    (test : RawMap) (obj : List (StructField × Val)) (e : Option String)
    (h : (unmarshalFieldsRun table jsonUnmarshal canSet test obj).2 = .returns e) :
    unmarshalFields table jsonUnmarshal test obj
      = ((unmarshalFieldsRun table jsonUnmarshal canSet test obj).1, e) := by
  induction obj with
  | nil =>
    simp only [unmarshalFieldsRun, Outcome.returns.injEq] at h
    simp only [unmarshalFields, unmarshalFieldsRun, h]
  | cons b rest ih =>
    obtain ⟨ft, fv⟩ := b
    cases hk : test (getName table ft) with
    | none =>
      simp only [unmarshalFieldsRun, hk] at h
      simp only [unmarshalFields, unmarshalFieldsRun, hk, ih h]
    | some r =>
      cases hp : jsonUnmarshal ft.Typ r with
      | error err =>
        simp only [unmarshalFieldsRun, hk, hp, Outcome.returns.injEq] at h
        simp only [unmarshalFields, unmarshalFieldsRun, hk, hp, h]
      | ok p =>
        by_cases hs : canSet ft = true
        · simp only [unmarshalFieldsRun, hk, hp, hs, if_true] at h
          simp only [unmarshalFields, unmarshalFieldsRun, hk, hp, hs, if_true, ih h]
        · simp only [unmarshalFieldsRun, hk, hp, hs, if_false] at h
          cases h

theorem UnmarshalRun_of_test {Val : Type} (table : Char → Char)
    (jsonUnmarshal : Ty → Json → Except String Val) (canSet : StructField → Bool)
    (data : Option Json) (test : RawMap) (obj : List (StructField × Val))
    (h : jsonUnmarshalTest data = .ok test) :
    UnmarshalRun table jsonUnmarshal canSet data obj
      = unmarshalFieldsRun table jsonUnmarshal canSet test obj := by
  simp only [UnmarshalRun, h]

theorem unmarshalFieldsRun_fail_fast {Val : Type} (table : Char → Char)
    (jsonUnmarshal : Ty → Json → Except String Val) (canSet : StructField → Bool)
    (test : RawMap) (before after : List (StructField × Val)) (fieldType : StructField)
    (field : Val) (raw : Json) (err : String)
    (hbefore : ∀ b ∈ before, ∀ r, test (getName table b.1) = some r →
      ∃ p, jsonUnmarshal b.1.Typ r = .ok p)
    (hset : ∀ b ∈ before, ∀ r, test (getName table b.1) = some r → canSet b.1 = true)
    (hpresent : test (getName table fieldType) = some raw)
    (hfail : jsonUnmarshal fieldType.Typ raw = .error err) :
    unmarshalFieldsRun table jsonUnmarshal canSet test (before ++ (fieldType, field) :: after)
      = (boundFields table jsonUnmarshal test before ++ (fieldType, field) :: after,
          .returns (some err)) := by
  induction before with
  | nil =>
    simp only [List.nil_append, unmarshalFieldsRun, hpresent, hfail, boundFields, List.map_nil]
  | cons b rest ih =>
    obtain ⟨ft, fv⟩ := b
    have ih2 := ih (fun b hb => hbefore b (List.mem_cons_of_mem _ hb))
      (fun b hb => hset b (List.mem_cons_of_mem _ hb))
    cases hk : test (getName table ft) with
    | none =>
      rw [List.cons_append]
      simp only [unmarshalFieldsRun, hk, ih2]
      simp [boundFields, hk]
    | some r =>
      obtain ⟨p, hp⟩ := hbefore (ft, fv) (List.mem_cons_self _ _) r hk
      have hs : canSet ft = true := hset (ft, fv) (List.mem_cons_self _ _) r hk
      rw [List.cons_append]
      simp only [unmarshalFieldsRun, hk, hp, hs, if_true, ih2]
      simp [boundFields, hk, hp]

/-- C17, as amended. For a valid payload, with `test` the mapping that the first
`json.Unmarshal` gives, and a target that is a pointer to a struct: when the fields
before a field all decode and can be set where their key is present, and the field has
its key present with a raw value whose decoding fails, `Unmarshal` returns that
decoding error; the fields before hold their decoded value where their key is present
and are as they were otherwise; the failing field and every field after it are as
they were. -/
theorem unmarshal_fail_fast {Val : Type} (table : Char → Char)
    (jsonUnmarshal : Ty → Json → Except String Val) (canSet : StructField → Bool)
    (data : Option Json) (test : RawMap)
    (before after : List (StructField × Val)) (fieldType : StructField) (field : Val)
    (raw : Json) (err : String)
    (hvalid : jsonUnmarshalTest data = .ok test)
    (hbefore : ∀ b ∈ before, ∀ r, test (getName table b.1) = some r →
      ∃ p, jsonUnmarshal b.1.Typ r = .ok p)
    (hset : ∀ b ∈ before, ∀ r, test (getName table b.1) = some r → canSet b.1 = true)
    (hpresent : test (getName table fieldType) = some raw)
    (hfail : jsonUnmarshal fieldType.Typ raw = .error err) :
    UnmarshalRun table jsonUnmarshal canSet data (before ++ (fieldType, field) :: after)
      = (before.map (fun b =>
            match test (getName table b.1) with
            | none => b
            | some r =>
              match jsonUnmarshal b.1.Typ r with
              | .ok p => (b.1, p)
              | .error _ => b)
          ++ (fieldType, field) :: after,
          .returns (some err)) := by
  rw [UnmarshalRun_of_test table jsonUnmarshal canSet data test _ hvalid]
  exact unmarshalFieldsRun_fail_fast table jsonUnmarshal canSet test before after fieldType
    field raw err hbefore hset hpresent hfail

/-- C17, as amended, on a target whose second field is declared as a list while the
response gives an object: the first field, which is exported, is bound, the second and
the third are as they were, and the error is the one of the decoder. -/
theorem unmarshal_fail_fast_witness :
    UnmarshalRun sampleTable sampleDecode isExported (some flatResponse) flatTarget
      = ([ (.mk "Name" none Ty.basic, .string "R2-D2"),
           (.mk "Hero" none (.Slice Ty.basic none), .null),
           (.mk "Height" none Ty.basic, .number "0") ],
         .returns (some "json: cannot unmarshal into Go value of type slice")) :=
  (unmarshal_fail_fast sampleTable sampleDecode isExported (some flatResponse)
      (storeMembers RawMap.empty
        [ ("name", .string "R2-D2"), ("hero", heroJson), ("height", .number "1.09") ])
      [ (.mk "Name" none Ty.basic, .string "") ]
      [ (.mk "Height" none Ty.basic, .number "0") ]
      (.mk "Hero" none (.Slice Ty.basic none)) .null heroJson
      "json: cannot unmarshal into Go value of type slice"
      (by rfl)
      (fun b hb r hr => by
        rw [List.mem_singleton] at hb
        subst hb
        have h1 : r = Json.string "R2-D2" := (Option.some.inj hr).symm
        subst h1
        exact ⟨_, rfl⟩)
      (fun b hb r _ => by
        rw [List.mem_singleton] at hb
        subst hb
        rfl)
      (by rfl) (by rfl)).trans (by rfl)

/-- C17 as first stated fails. In the target `unexportedTarget` the field `Hero` is the
first present field whose raw value fails to decode, and the field `name` before it is
present and decodes: `Unmarshal` returns no error, it panics in `field.Set` on `name`,
and `name` does not hold its decoded value. -/
theorem unmarshal_fail_fast_counterexample :
    UnmarshalRun sampleTable sampleDecode isExported (some flatResponse) unexportedTarget
        = (unexportedTarget, .panics unsettable)
      ∧ jsonUnmarshalTest (some flatResponse)
          = .ok (storeMembers RawMap.empty
              [ ("name", .string "R2-D2"), ("hero", heroJson), ("height", .number "1.09") ])
      ∧ sampleDecode Ty.basic (.string "R2-D2") = .ok (.string "R2-D2")
      ∧ sampleDecode (.Slice Ty.basic none) heroJson
          = .error "json: cannot unmarshal into Go value of type slice" := by
  exact ⟨by rfl, by rfl, by rfl, by rfl⟩

end GraphQL
